import Mathlib

/- Verification of the SmartMarkdown Sublime Text plugin pair:
   smart_folding.py (headline folding commands) and pandoc_render.py
   (markdown export through the pandoc binary).

   The host editor state is modelled shallowly: a view is its buffer
   (a list of lines of characters), its selection regions, its folded
   regions, its file name and its reported encoding.  Points are
   character offsets into the buffer text where lines are joined by a
   single newline character, matching the Sublime Text point model.  -/

namespace SmartMarkdown

/-- A Sublime Text region: a pair of character offsets.  Folded regions
and selection regions in this development are forward (`a ≤ b`). -/
structure Region where
  a : Nat
  b : Nat
deriving DecidableEq

/-- `Region.contains r s` models Sublime's `Region.contains(region)`:
`r` contains `s` when `r.a ≤ s.a` and `s.b ≤ r.b`. -/
def Region.contains (r s : Region) : Bool :=
  decide (r.a ≤ s.a ∧ s.b ≤ r.b)

/-- The buffer content of a view: a list of lines, each a list of
characters (no newline characters inside a line). -/
abbrev Lines := List (List Char)

/-- Character offset of the start of line `i` (each earlier line
contributes its length plus one for the newline).  Saturates at the
total when `i` exceeds the number of lines. -/
def lineStart : Lines → Nat → Nat
  | _, 0 => 0
  | [], _ + 1 => 0
  | l :: ls, i + 1 => l.length + 1 + lineStart ls i

/-- Row of the line containing point `p` (the point sitting on the
newline at the end of a line belongs to that line, as in Sublime's
`rowcol`). -/
def rowOf : Lines → Nat → Nat
  | [], _ => 0
  | l :: ls, p => if p ≤ l.length then 0 else 1 + rowOf ls (p - (l.length + 1))

/-- Column of point `p` within its line. -/
def colOf : Lines → Nat → Nat
  | [], p => p
  | l :: ls, p => if p ≤ l.length then p else colOf ls (p - (l.length + 1))

/-- Sublime's `view.text_point(row, col)`. -/
def text_point (ls : Lines) (row col : Nat) : Nat :=
  lineStart ls row + col

/-- The full buffer text: lines joined by newline characters.  This is
what `view.substr(sublime.Region(0, view.size()))` reads. -/
def joinLines : Lines → List Char
  | [] => []
  | [l] => l
  | l :: l2 :: ls => l ++ '\n' :: joinLines (l2 :: ls)

/-- Sublime's `view.size()`: the length of the buffer text. -/
def bufSize (ls : Lines) : Nat :=
  lineStart ls ls.length - 1

/-- The line at row `i` (empty beyond the end of the buffer). -/
def lineAt (ls : Lines) (i : Nat) : List Char :=
  ls.getD i []

/- ------------------------------------------------------------------
   The `headline` module of the SmartMarkdown repository is imported by
   smart_folding.py but its source is not part of src/.  Its query
   functions are modelled from the spec below.
   ------------------------------------------------------------------ -/

/-- Number of leading `#` characters of a line. -/
def leadingHashes : List Char → Nat
  | '#' :: rest => leadingHashes rest + 1
  | _ => 0

/-- Modelled from the spec: headline-level detection of the missing
`headline` module.  A markdown headline matches `^(#+)\s.*` (the
`HEADLINE_PATTERN` of smart_folding.py): one or more `#` followed by a
whitespace character; its level is the number of `#`.  Returns `none`
for a non-headline line. -/
def headlineLevel (l : List Char) : Option Nat :=
  let n := leadingHashes l
  if n = 0 then none
  else
    match l.drop n with
    | c :: _ => if c = ' ' ∨ c = '\t' then some n else none
    | [] => none

/-- First row at or after `r0` satisfying `cond`, probing `fuel` rows. -/
def scanFrom (cond : Nat → Bool) : Nat → Nat → Option Nat
  | _, 0 => none
  | r0, fuel + 1 => if cond r0 then some r0 else scanFrom cond (r0 + 1) fuel

/-- Modelled from the spec: the headline search of the missing
`headline` module, restricted to levels at most `lv` (the
`MATCH_PARENT` mode used to delimit a headline's content).  Returns the
first row at or after `r0` holding a headline of level `≤ lv`. -/
def findParentRow (ls : Lines) (r0 lv : Nat) : Option Nat :=
  scanFrom
    (fun j =>
      match headlineLevel (lineAt ls j) with
      | some lv2 => decide (lv2 ≤ lv)
      | none => false)
    r0 (ls.length - r0)

/-- Modelled from the spec: headline search at any level
(`headline.ANY_LEVEL`): the first row at or after `r0` holding a
headline. -/
def findAnyHeadlineRow (ls : Lines) (r0 : Nat) : Option Nat :=
  scanFrom (fun j => (headlineLevel (lineAt ls j)).isSome) r0 (ls.length - r0)

/-- Row bounding the content of a headline of level `lv` at row `r`:
the first row after `r` holding a headline of level `≤ lv`, or the
number of lines when there is none. -/
def contentBound (ls : Lines) (r lv : Nat) : Nat :=
  match findParentRow ls (r + 1) lv with
  | some r2 => r2
  | none => ls.length

/-- Modelled from the spec: `headline.region_of_content_of_headline_at_point`
of the missing `headline` module, at row granularity.  The content of a
headline at row `r` runs from the start of the next line up to just
before the next headline of the same or a higher level (the character
offset of the newline preceding it), or to the end of the buffer.
Returns `none` when the headline has no content line (the code treats
that as empty content). -/
def contentRegionRow (ls : Lines) (r : Nat) : Option Region :=
  match headlineLevel (lineAt ls r) with
  | none => none
  | some lv =>
    let B := contentBound ls r lv
    if r + 1 < B then some ⟨lineStart ls (r + 1), lineStart ls B - 1⟩ else none

/-- Modelled from the spec: content region of the headline at point. -/
def contentRegion (ls : Lines) (p : Nat) : Option Region :=
  contentRegionRow ls (rowOf ls p)

/-- Modelled from the spec: the level part of
`headline.headline_and_level_at_point`: the level of the headline on
the line containing the point, if any. -/
def levelAtPoint (ls : Lines) (p : Nat) : Option Nat :=
  headlineLevel (lineAt ls (rowOf ls p))

/-- Modelled from the spec: `headline.find_headline` searching forward
at any level.  With `skip` set (`skip_headline_at_point=True`) the
search starts after the line containing the point; otherwise at that
line (the commands only use the non-skip form from point `0`).
Returns the region of the headline line. -/
def find_headline (ls : Lines) (p : Nat) (skip : Bool) : Option Region :=
  let r0 := if skip then rowOf ls p + 1 else rowOf ls p
  match findAnyHeadlineRow ls r0 with
  | some j => some ⟨lineStart ls j, lineStart ls j + (lineAt ls j).length⟩
  | none => none

/- ------------------------------------------------------------------
   The host editor view.
   ------------------------------------------------------------------ -/

/-- The persistent editor entities owned by the host: buffer text,
selection regions, folded-region list, plus the file name and reported
encoding read by the pandoc command. -/
structure View where
  lines : Lines
  sel : List Region
  folds : List Region
  fileName : Option String
  encoding : String
deriving DecidableEq

/-- Host call `view.fold(region)`: adds the region to the folded list
unless it is already folded. -/
def viewFold (v : View) (r : Region) : View :=
  if r ∈ v.folds then v else { v with folds := v.folds ++ [r] }

/-- Host call `view.unfold(region)`: removes every folded region
contained in the given region. -/
def viewUnfold (v : View) (r : Region) : View :=
  { v with folds := v.folds.filter (fun f => ¬ r.contains f) }

/-- Insertion of one character into a list at a position. -/
def insertAt (t : List Char) (p : Nat) (c : Char) : List Char :=
  t.take p ++ c :: t.drop p

/-- Host behaviour on insertion: a region coordinate at or after the
insertion point moves forward by one. -/
def shiftRegion (p : Nat) (r : Region) : Region :=
  ⟨if p ≤ r.a then r.a + 1 else r.a, if p ≤ r.b then r.b + 1 else r.b⟩

/-- Host call `view.insert(edit, p, c)` for a single character: the
character is inserted into the line holding `p`, and the host adjusts
the selection and folded regions. -/
def viewInsert (v : View) (p : Nat) (c : Char) : View :=
  let r := rowOf v.lines p
  { v with
    lines := v.lines.set r (insertAt (lineAt v.lines r) (colOf v.lines p) c)
    sel := v.sel.map (shiftRegion p)
    folds := v.folds.map (shiftRegion p) }

/- ------------------------------------------------------------------
   SmartFoldingCommand (smart_folding.py lines 22-96).
   ------------------------------------------------------------------ -/

/-- `SmartFoldingCommand.is_region_totally_folded`: a missing region or
an empty region counts as folded; otherwise some folded region must
contain it. -/
def is_region_totally_folded (v : View) (reg : Option Region) : Bool :=
  match reg with
  | none => true
  | some r => decide (r.a = r.b) || v.folds.any (fun f => f.contains r)

/-- Modelled from the spec: `headline.is_scope_headline`, which asks the
host whether the syntax scope at the point is a markdown heading; on a
markdown view this holds exactly on headline lines. -/
def is_scope_headline (ls : Lines) (p : Nat) : Bool :=
  (levelAtPoint ls p).isSome

/-- Generic pass over rows `i, i+1, ..., i+k-1` threading the view
through a step function (the loop of `unfold_yet_fold_subheads`). -/
def foldLinesGo (step : View → Nat → View) : View → Nat → Nat → View
  | v, _, 0 => v
  | v, i, k + 1 => foldLinesGo step (step v i) (i + 1) k

/-- `SmartFoldingCommand.fold_or_unfold_headline_at_point`, with a fuel
bound on the recursion depth through `unfold_yet_fold_subheads` (the
code recurses through nested headline levels; any fuel at least one
yields the behaviour of the source, see the no-op and loop lemmas
below).  The `level` parameter of the source is dead: the function
immediately overwrites it from `headline_and_level_at_point`.  Returns
the updated view and whether the point was on a headline. -/
def foldOrUnfoldAux : Nat → View → Nat → View × Bool
  | 0, v, _ => (v, false)
  | fuel + 1, v, p =>
    match levelAtPoint v.lines p with
    | none => (v, false)
    | some _ =>
      if is_scope_headline v.lines p then
        match contentRegion v.lines p with
        | none => (v, true)
        | some cr =>
          if is_region_totally_folded v (some cr) then
            -- unfold_yet_fold_subheads: unfold, then walk the lines
            let v1 := viewUnfold v cr
            let sl := rowOf v1.lines cr.a
            let el := rowOf v1.lines cr.b
            (foldLinesGo
              (fun w i => (foldOrUnfoldAux fuel w (text_point w.lines i 0)).1)
              v1 sl (el + 1 - sl), true)
          else (viewFold v cr, true)
      else (v, false)

/-- `SmartFoldingCommand.unfold_yet_fold_subheads`: unfold the region,
then re-run the fold command on every line of the region. -/
def unfold_yet_fold_subheads (fuel : Nat) (v : View) (reg : Region) : View :=
  let v1 := viewUnfold v reg
  let sl := rowOf v1.lines reg.a
  let el := rowOf v1.lines reg.b
  foldLinesGo (fun w i => (foldOrUnfoldAux fuel w (text_point w.lines i 0)).1)
    v1 sl (el + 1 - sl)

/-- Fuel bounding the headline nesting depth: one more than the number
of buffer lines. -/
def viewFuel (v : View) : Nat :=
  v.lines.length + 1

/-- Top-level `fold_or_unfold_headline_at_point` with sufficient fuel. -/
def fold_or_unfold_headline_at_point (v : View) (p : Nat) : View × Bool :=
  foldOrUnfoldAux (viewFuel v) v p

/-- First loop of `SmartFoldingCommand.run`: toggle at every selection
point, recording whether any point was on a headline. -/
def smartRunFoldLoop : View → List Region → View × Bool
  | v, [] => (v, false)
  | v, r :: rs =>
    let res := fold_or_unfold_headline_at_point v r.a
    let rest := smartRunFoldLoop res.1 rs
    (rest.1, res.2 || rest.2)

/-- Second loop of `SmartFoldingCommand.run`: insert a tab at each
selection region, iterating over the live (host-adjusted) selection
list by index. -/
def insertTabsFrom : Nat → View → Nat → View
  | 0, v, _ => v
  | fuel + 1, v, k =>
    match v.sel.get? k with
    | none => v
    | some r => insertTabsFrom fuel (viewInsert v r.a '\t') (k + 1)

/-- `SmartFoldingCommand.run`: toggle folding at each selection point;
when no selection point was on a headline, insert a tab at every
selection region instead.  (`view.show` only scrolls and is not part of
the persistent state.) -/
def smart_folding_run (v : View) : View :=
  let res := smartRunFoldLoop v v.sel
  if res.2 then res.1 else insertTabsFrom res.1.sel.length res.1 0

/- ------------------------------------------------------------------
   GlobalFoldingCommand (smart_folding.py lines 99-190).
   ------------------------------------------------------------------ -/

/-- Loop of `GlobalFoldingCommand.is_global_folded`, with fuel; `none`
means the fuel ran out (the termination theorem shows it never does
with `viewFuel`). -/
def isGlobalFoldedLoop (v : View) : Nat → Nat → Option Bool
  | 0, _ => none
  | fuel + 1, point =>
    let regOpt := contentRegion v.lines point
    let point1 := match regOpt with | some s => s.b | none => point
    if is_region_totally_folded v regOpt = false then some false
    else
      match find_headline v.lines point1 true with
      | some reg => isGlobalFoldedLoop v fuel reg.a
      | none => some true

/-- `GlobalFoldingCommand.is_global_folded`. -/
def is_global_folded (v : View) : Option Bool :=
  match find_headline v.lines 0 false with
  | none => some true
  | some reg => isGlobalFoldedLoop v (viewFuel v) reg.a

/-- Loop of `GlobalFoldingCommand.fold_all`, with fuel. -/
def foldAllLoop : Nat → View → Nat → Option View
  | 0, _, _ => none
  | fuel + 1, v, point =>
    let regOpt := contentRegion v.lines point
    let st := match regOpt with
      | some s => (viewFold v s, s.b)
      | none => (v, point)
    match find_headline st.1.lines st.2 true with
    | some reg => foldAllLoop fuel st.1 reg.a
    | none => some st.1

/-- `GlobalFoldingCommand.adjust_cursors_and_view`: move every cursor
contained in a folded region to the end of that region. -/
def adjust_cursors_and_view (v : View) : View :=
  { v with
    sel := v.sel.map (fun r =>
      match v.folds.find? (fun f => f.contains r) with
      | some f => ⟨f.b, f.b⟩
      | none => r) }

/-- `GlobalFoldingCommand.fold_all` (the code only calls it when a
headline exists; `none` otherwise, or on fuel exhaustion). -/
def fold_all (v : View) : Option View :=
  match find_headline v.lines 0 false with
  | none => none
  | some reg => (foldAllLoop (viewFuel v) v reg.a).map adjust_cursors_and_view

/-- `GlobalFoldingCommand.unfold_all`: unfold the whole buffer. -/
def unfold_all (v : View) : View :=
  viewUnfold v ⟨0, bufSize v.lines⟩

/-- `GlobalFoldingCommand.run`. -/
def global_folding_run (v : View) : Option View :=
  match is_global_folded v with
  | none => none
  | some true => some (unfold_all v)
  | some false => fold_all v

/- ------------------------------------------------------------------
   PandocRenderCommand (pandoc_render.py).
   ------------------------------------------------------------------ -/

/-- External effects of the pandoc command: file writes, temporary
output-file creation, subprocess invocations, and result opening. -/
inductive PEffect where
  | writeFile (name : String) (contents : List Char)
  | mkTempOutput (name : String)
  | subprocess (cmd : List String)
  | browserOpen (url : String)
  | osStartFile (name : String)
deriving DecidableEq

/-- Exceptions `PandocRenderCommand.run` can raise. -/
inductive PExc where
  /-- The explicit `raise Exception("Format %s currently unsopported")`. -/
  | unsupportedFormat (target : String)
  /-- The exception raised by `os.path.splitext(None)` when the view has
  no file name. -/
  | splitextOfNone
  /-- The explicit `raise Exception("Please safe the buffer ...")`. -/
  | saveBufferFirst
  /-- The exception raised by `['pandoc'] + None` were `pandoc_args` to
  return `None`. -/
  | argsOfNone
deriving DecidableEq

/-- Arguments of `PandocRenderCommand.run` (source defaults:
`target="pdf"`, `openAfter=True`, `saveResult=False`). -/
structure PandocArgs where
  target : String := "pdf"
  openAfter : Bool := true
  saveResult : Bool := false

/-- Host environment of the pandoc command: fresh temporary-file base
names and the platform string reported by `sublime.platform()`. -/
structure PandocEnv where
  tempName : Nat → String
  platform : String

/-- Result of a run: the (unchanged) view, the external effects in
order, and the exception that aborted the run, if any. -/
structure PandocOut where
  view : View
  effects : List PEffect
  exc : Option PExc
deriving DecidableEq

/-- `PandocRenderCommand.pandoc_args`: target-dependent argument list
(`None` for any other target, as the Python falls through). -/
def pandoc_args (target : String) : Option (List String) :=
  if target = "pdf" then some []
  else if target = "html" then some ["-t", "html5"]
  else if target = "docx" then some ["-t", "docx"]
  else none

/-- `PandocRenderCommand.run_pandoc`: a single blocking subprocess call
`['pandoc'] + args + [infile, '-o', outfile]`. -/
def run_pandoc (infile outfile : String) (args : List String) : List PEffect :=
  [PEffect.subprocess (["pandoc"] ++ args ++ [infile, "-o", outfile])]

/-- `PandocRenderCommand.open_result`: open in a browser for html,
otherwise hand the file to the platform opener. -/
def open_result (platform outfile target : String) : List PEffect :=
  if target = "html" then [PEffect.browserOpen outfile]
  else if platform = "windows" then [PEffect.osStartFile outfile]
  else if platform = "osx" then [PEffect.subprocess ["open", outfile]]
  else if platform = "linux" then [PEffect.subprocess ["xdg-open", outfile]]
  else []

/-- Root of `os.path.splitext`: the prefix before the last dot. -/
def splitextRoot (s : String) : String :=
  match (s.data.reverse).findIdx? (fun c => c = '.') with
  | some i => ⟨s.data.take (s.data.length - i - 1)⟩
  | none => s

/-- The encoding normalisation of lines 32-36 of pandoc_render.py.  The
source computes it and then never uses it. -/
def normalizedEncoding (enc : String) : String :=
  if enc = "Undefined" then "UTF-8"
  else if enc = "Western (Windows 1252)" then "windows-1252"
  else enc

/-- Steps of `PandocRenderCommand.run` after the output name is known:
build the argument list, invoke pandoc, optionally open the result. -/
def pandocFinish (args : PandocArgs) (env : PandocEnv)
    (eff : List PEffect) (tmpName outName : String) : List PEffect × Option PExc :=
  match pandoc_args args.target with
  | none => (eff, some PExc.argsOfNone)
  | some pargs =>
    let eff2 := eff ++ run_pandoc tmpName outName pargs
    let eff3 :=
      if args.openAfter then eff2 ++ open_result env.platform outName args.target
      else eff2
    (eff3, none)

/-- Effects and exception of `PandocRenderCommand.run` (pandoc_render.py
lines 29-58), as a function of the only view components the source
reads for them: the buffer text and the file name (the computed
`encoding` of lines 32-36, `normalizedEncoding`, is dead in the
source).  Check the target, write the buffer verbatim to a temporary
`.md` file, compute the output name (raising if `saveResult` is set and
the view has no file name, before the explicit guard on the next line
can run), run pandoc, and optionally open the result. -/
def pandocCore (ls : Lines) (fileName : Option String) (args : PandocArgs)
    (env : PandocEnv) : List PEffect × Option PExc :=
  if args.target ∈ (["html", "docx", "pdf"] : List String) then
    let contents := joinLines ls
    let tmpName := env.tempName 0 ++ ".md"
    let eff1 : List PEffect := [PEffect.writeFile tmpName contents]
    let suffix := "." ++ args.target
    if args.saveResult then
      match fileName with
      | none => (eff1, some PExc.splitextOfNone)
      | some fn =>
        let outName := splitextRoot fn ++ suffix
        if fn = "" then (eff1, some PExc.saveBufferFirst)
        else pandocFinish args env eff1 tmpName outName
    else
      let outName := env.tempName 1 ++ suffix
      pandocFinish args env (eff1 ++ [PEffect.mkTempOutput outName]) tmpName outName
  else ([], some (PExc.unsupportedFormat args.target))

/-- `PandocRenderCommand.run`: the view itself is only read, never
written (the command's writes all go to the file system and to the
external pandoc process). -/
def pandocRun (v : View) (args : PandocArgs) (env : PandocEnv) : PandocOut :=
  ⟨v, (pandocCore v.lines v.fileName args env).1, (pandocCore v.lines v.fileName args env).2⟩

/- ------------------------------------------------------------------
   Derived predicates used in statements.
   ------------------------------------------------------------------ -/

/-- `w` differs from `v` at most in the folded-region list. -/
def FoldsOnly (v w : View) : Prop :=
  w.lines = v.lines ∧ w.sel = v.sel ∧ w.fileName = v.fileName ∧
    w.encoding = v.encoding

/-- `w` keeps the file name and encoding of `v` (its persistent editor
entities are touched only through the insert/fold/unfold/sel host
calls). -/
def SameFile (v w : View) : Prop :=
  w.fileName = v.fileName ∧ w.encoding = v.encoding

/-- Reference insertion of one tab at each of a list of positions of a
text, later positions first, so every position refers to the original
coordinates. -/
def insertTabsSpec (t : List Char) (ps : List Nat) : List Char :=
  ps.foldr (fun p acc => insertAt acc p '\t') t

/-- At point `p`, any content region is already totally folded and no
fold of the view lies inside it.  On such points the fold command is a
no-op (the state of a hidden subtree is never altered). -/
def CoveredAt (v : View) (p : Nat) : Prop :=
  ∀ s, contentRegion v.lines p = some s →
    is_region_totally_folded v (some s) = true ∧
      ∀ g ∈ v.folds, s.contains g = false

/-- Invariant of the line walk of `unfold_yet_fold_subheads` over the
content region of the headline at row `r` of level `lv`, with rows
before `bound` already processed: the buffer is unchanged, folds are
well formed, every fold either lies strictly outside the walked content
region or is the nonempty content region of an already processed
subheadline row, and the content region of every already processed
subheadline row is totally folded. -/
def LoopInv (ls : Lines) (r lv bound : Nat) (v : View) : Prop :=
  v.lines = ls ∧
  (∀ f ∈ v.folds, f.a ≤ f.b) ∧
  (∀ f ∈ v.folds,
    (f.b < lineStart ls (r + 1) ∨ lineStart ls (contentBound ls r lv) - 1 < f.a) ∨
    (∃ j s, r + 1 ≤ j ∧ j < bound ∧ contentRegionRow ls j = some s ∧
      f = s ∧ s.a < s.b)) ∧
  (∀ j s, r + 1 ≤ j → j < bound → contentRegionRow ls j = some s →
    is_region_totally_folded v (some s) = true)

/- ------------------------------------------------------------------
   Pandoc claims.
   ------------------------------------------------------------------ -/

/-- For a supported target, `pandoc_args` returns a value. -/
theorem pandoc_args_isSome_of_supported (t : String)
    (h : t ∈ (["html", "docx", "pdf"] : List String)) :
    ∃ pargs, pandoc_args t = some pargs := by
  simp only [List.mem_cons, List.not_mem_nil, or_false] at h
  rcases h with h | h | h
  · exact ⟨["-t", "html5"], by simp [pandoc_args, h]⟩
  · exact ⟨["-t", "docx"], by simp [pandoc_args, h]⟩
  · exact ⟨[], by simp [pandoc_args, h]⟩

theorem pandocFinish_exc (args : PandocArgs) (env : PandocEnv)
    (eff : List PEffect) (tmpName outName : String)
    (pargs : List String) (h : pandoc_args args.target = some pargs) :
    (pandocFinish args env eff tmpName outName).2 = none := by
  unfold pandocFinish
  rw [h]

/-- Case analysis of `pandocCore` for an unsupported target. -/
theorem pandocCore_unsupported (ls : Lines) (fn : Option String)
    (args : PandocArgs) (env : PandocEnv)
    (h : args.target ∉ (["html", "docx", "pdf"] : List String)) :
    pandocCore ls fn args env = ([], some (PExc.unsupportedFormat args.target)) := by
  unfold pandocCore
  rw [if_neg h]

/-- Equation of `pandocCore`: supported target, `saveResult` set, no
file name. -/
theorem pandocCore_save_noname (ls : Lines) (args : PandocArgs) (env : PandocEnv)
    (hs : args.target ∈ (["html", "docx", "pdf"] : List String))
    (hsr : args.saveResult = true) :
    pandocCore ls none args env =
      ([PEffect.writeFile (env.tempName 0 ++ ".md") (joinLines ls)],
        some PExc.splitextOfNone) := by
  unfold pandocCore
  rw [if_pos hs, if_pos hsr]

/-- Equation of `pandocCore`: supported target, `saveResult` set, file
name present. -/
theorem pandocCore_save_name (ls : Lines) (args : PandocArgs) (env : PandocEnv)
    (fn : String)
    (hs : args.target ∈ (["html", "docx", "pdf"] : List String))
    (hsr : args.saveResult = true) :
    pandocCore ls (some fn) args env =
      if fn = "" then
        ([PEffect.writeFile (env.tempName 0 ++ ".md") (joinLines ls)],
          some PExc.saveBufferFirst)
      else
        pandocFinish args env
          [PEffect.writeFile (env.tempName 0 ++ ".md") (joinLines ls)]
          (env.tempName 0 ++ ".md") (splitextRoot fn ++ ("." ++ args.target)) := by
  unfold pandocCore
  rw [if_pos hs, if_pos hsr]

/-- Equation of `pandocCore`: supported target, `saveResult` unset. -/
theorem pandocCore_nosave (ls : Lines) (fileName : Option String)
    (args : PandocArgs) (env : PandocEnv)
    (hs : args.target ∈ (["html", "docx", "pdf"] : List String))
    (hsr : args.saveResult = false) :
    pandocCore ls fileName args env =
      pandocFinish args env
        ([PEffect.writeFile (env.tempName 0 ++ ".md") (joinLines ls)] ++
          [PEffect.mkTempOutput (env.tempName 1 ++ ("." ++ args.target))])
        (env.tempName 0 ++ ".md") (env.tempName 1 ++ ("." ++ args.target)) := by
  unfold pandocCore
  rw [if_pos hs, if_neg (by rw [hsr]; exact Bool.false_ne_true)]

/-- Case analysis of the exception of `pandocCore` for a supported
target. -/
theorem pandocCore_supported_exc (ls : Lines) (fileName : Option String)
    (args : PandocArgs) (env : PandocEnv)
    (hs : args.target ∈ (["html", "docx", "pdf"] : List String))
    (pargs : List String) (hp : pandoc_args args.target = some pargs) :
    ((pandocCore ls fileName args env).2 = none ∨
     (pandocCore ls fileName args env).2 = some PExc.splitextOfNone ∨
     (pandocCore ls fileName args env).2 = some PExc.saveBufferFirst) ∧
    ((args.saveResult = false ∨ ∃ fn, fileName = some fn ∧ fn ≠ "") →
      (pandocCore ls fileName args env).2 = none) := by
  by_cases hsr : args.saveResult = true
  · cases hfn : fileName with
    | none =>
      rw [pandocCore_save_noname ls args env hs hsr]
      refine ⟨Or.inr (Or.inl rfl), ?_⟩
      rintro (hf | ⟨fn, hfn2, -⟩)
      · rw [hsr] at hf; simp at hf
      · cases hfn2
    | some fn =>
      rw [pandocCore_save_name ls args env fn hs hsr]
      by_cases hfe : fn = ""
      · rw [if_pos hfe]
        refine ⟨Or.inr (Or.inr rfl), ?_⟩
        rintro (hf | ⟨fn2, hfn2, hne⟩)
        · rw [hsr] at hf; simp at hf
        · injection hfn2 with hx; exact absurd (hx ▸ hfe) hne
      · rw [if_neg hfe]
        exact ⟨Or.inl (pandocFinish_exc _ _ _ _ _ _ hp),
          fun _ => pandocFinish_exc _ _ _ _ _ _ hp⟩
  · have hsr2 : args.saveResult = false := by
      revert hsr; cases args.saveResult <;> simp
    rw [pandocCore_nosave ls fileName args env hs hsr2]
    exact ⟨Or.inl (pandocFinish_exc _ _ _ _ _ _ hp),
      fun _ => pandocFinish_exc _ _ _ _ _ _ hp⟩

/-- Equation of `pandocFinish` when the argument list exists. -/
theorem pandocFinish_eq (args : PandocArgs) (env : PandocEnv)
    (eff : List PEffect) (tmp out : String) (pargs : List String)
    (hp : pandoc_args args.target = some pargs) :
    pandocFinish args env eff tmp out =
      (eff ++ run_pandoc tmp out pargs ++
        (if args.openAfter then open_result env.platform out args.target else []),
        none) := by
  unfold pandocFinish
  rw [hp]
  dsimp only
  by_cases h : args.openAfter = true
  · rw [if_pos h, if_pos h]
  · rw [if_neg h, if_neg h, List.append_nil]

/-- The subprocess calls of `open_result` are the platform openers. -/
theorem open_result_subprocess (plat out tgt : String) (c : List String)
    (h : PEffect.subprocess c ∈ open_result plat out tgt) :
    c = ["open", out] ∨ c = ["xdg-open", out] := by
  unfold open_result at h
  by_cases h1 : tgt = "html"
  · rw [if_pos h1] at h; simp at h
  · rw [if_neg h1] at h
    by_cases h2 : plat = "windows"
    · rw [if_pos h2] at h; simp at h
    · rw [if_neg h2] at h
      by_cases h3 : plat = "osx"
      · rw [if_pos h3] at h; simp at h; exact Or.inl h
      · rw [if_neg h3] at h
        by_cases h4 : plat = "linux"
        · rw [if_pos h4] at h; simp at h; exact Or.inr h
        · rw [if_neg h4] at h; simp at h

/-- Subprocess calls in the post-output-name stage of the run. -/
theorem subprocess_in_finish_effects (eff : List PEffect)
    (heff : ∀ cmd, PEffect.subprocess cmd ∉ eff)
    (tmp out : String) (pargs : List String) (plat tgt : String) (b : Bool)
    (c : List String)
    (h : PEffect.subprocess c ∈
      eff ++ run_pandoc tmp out pargs ++ (if b then open_result plat out tgt else [])) :
    (∃ rest, c = "pandoc" :: rest) ∨ c = ["open", out] ∨ c = ["xdg-open", out] := by
  rcases List.mem_append.1 h with h1 | h2
  · rcases List.mem_append.1 h1 with h3 | h4
    · exact absurd h3 (heff c)
    · simp only [run_pandoc, List.mem_singleton, PEffect.subprocess.injEq] at h4
      exact Or.inl ⟨_, h4⟩
  · by_cases hb : b = true
    · rw [if_pos hb] at h2
      exact Or.inr (open_result_subprocess plat out tgt c h2)
    · rw [if_neg hb] at h2
      simp at h2

/-- C3: `pandoc_args` is the fixed mapping `pdf ↦ []`,
`html ↦ ['-t', 'html5']`, `docx ↦ ['-t', 'docx']`, and `run_pandoc`
performs exactly the single subprocess call
`['pandoc'] ++ args ++ [infile, '-o', outfile]`. -/
theorem C3_pandoc_args_run_pandoc :
    pandoc_args "pdf" = some [] ∧
    pandoc_args "html" = some ["-t", "html5"] ∧
    pandoc_args "docx" = some ["-t", "docx"] ∧
    ∀ infile outfile args, run_pandoc infile outfile args =
      [PEffect.subprocess (["pandoc"] ++ args ++ [infile, "-o", outfile])] :=
  ⟨by decide, by decide, by decide, fun _ _ _ => rfl⟩

/-- C2 (counterexample): the claim "run raises an exception if and only
if the target is unsupported" fails: with the supported target `"pdf"`,
`saveResult` set and no file name, the run still raises. -/
theorem C2_counterexample :
    letI v0 : View := ⟨[['x']], [], [], none, "UTF-8"⟩
    letI a0 : PandocArgs := ⟨"pdf", true, true⟩
    letI e0 : PandocEnv := ⟨fun _ => "t", "linux"⟩
    (pandocRun v0 a0 e0).exc.isSome = true ∧
      "pdf" ∈ (["html", "docx", "pdf"] : List String) := by
  decide

/-- C2 (amended): `PandocRenderCommand.run` raises the
unsupported-format exception exactly when the target is not one of
html, docx, pdf, and then before any temporary file is written and
before pandoc is invoked (no effects at all); for a supported target no
unsupported-format exception is raised, and no exception at all is
raised provided `saveResult` is unset or the view has a nonempty file
name. -/
theorem C2_unsupported_target_exception (v : View) (args : PandocArgs)
    (env : PandocEnv) :
    (args.target ∉ (["html", "docx", "pdf"] : List String) →
      pandocRun v args env =
        ⟨v, [], some (PExc.unsupportedFormat args.target)⟩) ∧
    (args.target ∈ (["html", "docx", "pdf"] : List String) →
      (∀ m, (pandocRun v args env).exc ≠ some (PExc.unsupportedFormat m)) ∧
      ((args.saveResult = false ∨ ∃ fn, v.fileName = some fn ∧ fn ≠ "") →
        (pandocRun v args env).exc = none)) := by
  constructor
  · intro hns
    unfold pandocRun
    rw [pandocCore_unsupported v.lines v.fileName args env hns]
  · intro hs
    obtain ⟨pargs, hp⟩ := pandoc_args_isSome_of_supported args.target hs
    have hcore := pandocCore_supported_exc v.lines v.fileName args env hs pargs hp
    constructor
    · intro m hm
      have hm2 : (pandocCore v.lines v.fileName args env).2 =
          some (PExc.unsupportedFormat m) := hm
      rcases hcore.1 with h | h | h <;> rw [h] at hm2 <;> simp at hm2
    · intro hgood
      exact hcore.2 hgood

/-- C2 (witness): at a concrete supported input the amended theorem
yields no exception. -/
theorem C2_unsupported_target_exception_witness :
    (pandocRun ⟨[['x']], [], [], none, "UTF-8"⟩ ⟨"pdf", true, false⟩
      ⟨fun _ => "t", "linux"⟩).exc = none := by
  have h := C2_unsupported_target_exception ⟨[['x']], [], [], none, "UTF-8"⟩
    ⟨"pdf", true, false⟩ ⟨fun _ => "t", "linux"⟩
  exact (h.2 (by decide)).2 (Or.inl rfl)

/-- C10: with `saveResult` set and no file name, the run aborts while
computing the output name from the missing file name
(`os.path.splitext(None)` raises), after the `.md` temporary write but
before any output file is created and before pandoc is invoked; and the
explicit file-name guard on the following line is unreachable: its
exception is never raised unless the host reports the empty string as a
file name (which Sublime never does). -/
theorem C10_missing_file_name :
    (∀ (v : View) (args : PandocArgs) (env : PandocEnv),
      args.saveResult = true → v.fileName = none →
      args.target ∈ (["html", "docx", "pdf"] : List String) →
      pandocRun v args env =
        ⟨v, [PEffect.writeFile (env.tempName 0 ++ ".md") (joinLines v.lines)],
          some PExc.splitextOfNone⟩) ∧
    (∀ (v : View) (args : PandocArgs) (env : PandocEnv),
      v.fileName ≠ some "" →
      (pandocRun v args env).exc ≠ some PExc.saveBufferFirst) := by
  constructor
  · intro v args env hsr hfn hs
    unfold pandocRun
    have hv : pandocCore v.lines v.fileName args env =
        ([PEffect.writeFile (env.tempName 0 ++ ".md") (joinLines v.lines)],
          some PExc.splitextOfNone) := by
      rw [hfn]
      exact pandocCore_save_noname v.lines args env hs hsr
    rw [hv]
  · intro v args env hfn
    show (pandocCore v.lines v.fileName args env).2 ≠ _
    by_cases hs : args.target ∈ (["html", "docx", "pdf"] : List String)
    · obtain ⟨pargs, hp⟩ := pandoc_args_isSome_of_supported args.target hs
      by_cases hsr : args.saveResult = true
      · cases hv : v.fileName with
        | none =>
          rw [pandocCore_save_noname v.lines args env hs hsr]
          simp
        | some fn =>
          rw [pandocCore_save_name v.lines args env fn hs hsr]
          have hfe : ¬ fn = "" := fun h => hfn (by rw [hv, h])
          rw [if_neg hfe, pandocFinish_exc _ _ _ _ _ _ hp]
          simp
      · have hsr2 : args.saveResult = false := by
          revert hsr; cases args.saveResult <;> simp
        rw [pandocCore_nosave v.lines v.fileName args env hs hsr2,
          pandocFinish_exc _ _ _ _ _ _ hp]
        simp
    · rw [pandocCore_unsupported v.lines v.fileName args env hs]
      simp

/-- C10 (witness): the theorem applied at a concrete input. -/
theorem C10_missing_file_name_witness :
    pandocRun ⟨[['x']], [], [], none, "UTF-8"⟩ ⟨"pdf", true, true⟩
        ⟨fun _ => "t", "linux"⟩ =
      ⟨⟨[['x']], [], [], none, "UTF-8"⟩, [PEffect.writeFile "t.md" ['x']],
        some PExc.splitextOfNone⟩ ∧
    (pandocRun ⟨[['x']], [], [], some "a.md", "UTF-8"⟩ ⟨"pdf", true, true⟩
        ⟨fun _ => "t", "linux"⟩).exc ≠ some PExc.saveBufferFirst := by
  constructor
  · have h := C10_missing_file_name.1 ⟨[['x']], [], [], none, "UTF-8"⟩
      ⟨"pdf", true, true⟩ ⟨fun _ => "t", "linux"⟩ rfl rfl (by decide)
    exact h
  · exact C10_missing_file_name.2 ⟨[['x']], [], [], some "a.md", "UTF-8"⟩
      ⟨"pdf", true, true⟩ ⟨fun _ => "t", "linux"⟩ (by decide)

/-- C5: for every buffer and every supported target, the run's first
effect writes the entire buffer text (the region from `0` to
`view.size()`) verbatim to a temporary file with suffix `.md`; the
effects and exception do not depend on the view's reported encoding;
and whenever the run completes, pandoc receives that temporary file as
its input. -/
theorem C5_buffer_written_verbatim (v : View) (args : PandocArgs)
    (env : PandocEnv) (enc : String)
    (hs : args.target ∈ (["html", "docx", "pdf"] : List String)) :
    (pandocRun v args env).effects.head? =
      some (PEffect.writeFile (env.tempName 0 ++ ".md") (joinLines v.lines)) ∧
    ((pandocRun { v with encoding := enc } args env).effects =
        (pandocRun v args env).effects ∧
      (pandocRun { v with encoding := enc } args env).exc =
        (pandocRun v args env).exc) ∧
    ((pandocRun v args env).exc = none →
      ∃ pargs outName, PEffect.subprocess
          (["pandoc"] ++ pargs ++ [env.tempName 0 ++ ".md", "-o", outName])
        ∈ (pandocRun v args env).effects) := by
  obtain ⟨pargs, hp⟩ := pandoc_args_isSome_of_supported args.target hs
  refine ⟨?_, ⟨rfl, rfl⟩, ?_⟩
  · show (pandocCore v.lines v.fileName args env).1.head? = _
    by_cases hsr : args.saveResult = true
    · cases hv : v.fileName with
      | none => rw [pandocCore_save_noname v.lines args env hs hsr]; rfl
      | some fn =>
        rw [pandocCore_save_name v.lines args env fn hs hsr]
        by_cases hfe : fn = ""
        · rw [if_pos hfe]; rfl
        · rw [if_neg hfe, pandocFinish_eq _ _ _ _ _ _ hp]; rfl
    · have hsr2 : args.saveResult = false := by
        revert hsr; cases args.saveResult <;> simp
      rw [pandocCore_nosave v.lines v.fileName args env hs hsr2,
        pandocFinish_eq _ _ _ _ _ _ hp]
      rfl
  · intro hnone
    have hnone2 : (pandocCore v.lines v.fileName args env).2 = none := hnone
    show ∃ pargs2 outName, PEffect.subprocess _ ∈
      (pandocCore v.lines v.fileName args env).1
    by_cases hsr : args.saveResult = true
    · cases hv : v.fileName with
      | none =>
        rw [hv] at hnone2
        rw [pandocCore_save_noname v.lines args env hs hsr] at hnone2
        simp at hnone2
      | some fn =>
        rw [hv] at hnone2
        rw [pandocCore_save_name v.lines args env fn hs hsr] at hnone2 ⊢
        by_cases hfe : fn = ""
        · rw [if_pos hfe] at hnone2; simp at hnone2
        · rw [if_neg hfe, pandocFinish_eq _ _ _ _ _ _ hp]
          refine ⟨pargs, splitextRoot fn ++ ("." ++ args.target), ?_⟩
          apply List.mem_append.2
          exact Or.inl (List.mem_append.2 (Or.inr (by simp [run_pandoc])))
    · have hsr2 : args.saveResult = false := by
        revert hsr; cases args.saveResult <;> simp
      rw [pandocCore_nosave v.lines v.fileName args env hs hsr2,
        pandocFinish_eq _ _ _ _ _ _ hp]
      refine ⟨pargs, env.tempName 1 ++ ("." ++ args.target), ?_⟩
      apply List.mem_append.2
      exact Or.inl (List.mem_append.2 (Or.inr (by simp [run_pandoc])))

/-- C5 (witness): at a concrete supported input the first effect writes
the whole buffer to the `.md` temporary file. -/
theorem C5_buffer_written_verbatim_witness :
    (pandocRun ⟨[['h', 'i']], [], [], none, "UTF-8"⟩ ⟨"html", false, false⟩
        ⟨fun _ => "t", "linux"⟩).effects.head? =
      some (PEffect.writeFile "t.md" ['h', 'i']) := by
  have h := C5_buffer_written_verbatim ⟨[['h', 'i']], [], [], none, "UTF-8"⟩
    ⟨"html", false, false⟩ ⟨fun _ => "t", "linux"⟩ "UTF-8" (by decide)
  exact h.1

/-- C8 (counterexample): the claim that no handler spawns any
subprocess other than pandoc fails: on linux with `openAfter` set, the
run also spawns the `xdg-open` opener process. -/
theorem C8_counterexample :
    PEffect.subprocess ["xdg-open", "out.pdf"] ∈
      (pandocRun ⟨[['x']], [], [], none, "UTF-8"⟩ ⟨"pdf", true, false⟩
        ⟨fun n => if n = 0 then "in" else "out", "linux"⟩).effects ∧
    ("xdg-open" : String) ≠ "pandoc" := by
  decide

/-- C8 (amended): the handlers are pure sequential functions of the
view producing a finite, ordered effect list (synchronous,
single-threaded), and every subprocess the conversion command spawns is
either the blocking pandoc call or, when opening a result, the platform
opener (`open` on osx, `xdg-open` on linux). -/
theorem C8_subprocess_commands (v : View) (args : PandocArgs)
    (env : PandocEnv) (c : List String)
    (hc : PEffect.subprocess c ∈ (pandocRun v args env).effects) :
    (∃ rest, c = "pandoc" :: rest) ∨
    (∃ f, c = ["open", f]) ∨ (∃ f, c = ["xdg-open", f]) := by
  have hmem : PEffect.subprocess c ∈ (pandocCore v.lines v.fileName args env).1 := hc
  by_cases hs : args.target ∈ (["html", "docx", "pdf"] : List String)
  · obtain ⟨pargs, hp⟩ := pandoc_args_isSome_of_supported args.target hs
    by_cases hsr : args.saveResult = true
    · cases hv : v.fileName with
      | none =>
        rw [hv] at hmem
        rw [pandocCore_save_noname v.lines args env hs hsr] at hmem
        simp at hmem
      | some fn =>
        rw [hv] at hmem
        rw [pandocCore_save_name v.lines args env fn hs hsr] at hmem
        by_cases hfe : fn = ""
        · rw [if_pos hfe] at hmem; simp at hmem
        · rw [if_neg hfe, pandocFinish_eq _ _ _ _ _ _ hp] at hmem
          rcases subprocess_in_finish_effects _ (by intro cmd h; simp at h)
            _ _ _ _ _ _ _ hmem with h | h | h
          · exact Or.inl h
          · exact Or.inr (Or.inl ⟨_, h⟩)
          · exact Or.inr (Or.inr ⟨_, h⟩)
    · have hsr2 : args.saveResult = false := by
        revert hsr; cases args.saveResult <;> simp
      rw [pandocCore_nosave v.lines v.fileName args env hs hsr2,
        pandocFinish_eq _ _ _ _ _ _ hp] at hmem
      rcases subprocess_in_finish_effects _ (by intro cmd h; simp at h)
        _ _ _ _ _ _ _ hmem with h | h | h
      · exact Or.inl h
      · exact Or.inr (Or.inl ⟨_, h⟩)
      · exact Or.inr (Or.inr ⟨_, h⟩)
  · rw [pandocCore_unsupported v.lines v.fileName args env hs] at hmem
    simp at hmem

/-- C8 (witness): the amended theorem applied to the pandoc call of a
concrete run. -/
theorem C8_subprocess_commands_witness :
    (∃ rest, (["pandoc", "in.md", "-o", "out.pdf"] : List String) =
      "pandoc" :: rest) ∨
    (∃ f, (["pandoc", "in.md", "-o", "out.pdf"] : List String) = ["open", f]) ∨
    (∃ f, (["pandoc", "in.md", "-o", "out.pdf"] : List String) = ["xdg-open", f]) := by
  exact C8_subprocess_commands ⟨[['x']], [], [], none, "UTF-8"⟩
    ⟨"pdf", true, false⟩ ⟨fun n => if n = 0 then "in" else "out", "linux"⟩
    ["pandoc", "in.md", "-o", "out.pdf"] (by decide)

/- ------------------------------------------------------------------
   Row-scan lemmas.
   ------------------------------------------------------------------ -/

theorem scanFrom_some (cond : Nat → Bool) :
    ∀ fuel r0 m, scanFrom cond r0 fuel = some m →
      r0 ≤ m ∧ m < r0 + fuel ∧ cond m = true ∧
        ∀ j, r0 ≤ j → j < m → cond j = false := by
  intro fuel
  induction fuel with
  | zero => intro r0 m h; cases h
  | succ n ih =>
    intro r0 m h
    unfold scanFrom at h
    by_cases hc : cond r0 = true
    · rw [if_pos hc] at h
      injection h with h
      subst h
      exact ⟨Nat.le_refl _, by omega, hc, fun j h1 h2 => by omega⟩
    · rw [if_neg hc] at h
      obtain ⟨h1, h2, h3, h4⟩ := ih (r0 + 1) m h
      refine ⟨by omega, by omega, h3, fun j hj1 hj2 => ?_⟩
      rcases Nat.eq_or_lt_of_le hj1 with he | hl
      · rw [← he]
        revert hc; cases cond r0 <;> simp
      · exact h4 j hl hj2

theorem scanFrom_none (cond : Nat → Bool) :
    ∀ fuel r0, scanFrom cond r0 fuel = none →
      ∀ j, r0 ≤ j → j < r0 + fuel → cond j = false := by
  intro fuel
  induction fuel with
  | zero => intro r0 _ j h1 h2; omega
  | succ n ih =>
    intro r0 h j h1 h2
    unfold scanFrom at h
    by_cases hc : cond r0 = true
    · rw [if_pos hc] at h; cases h
    · rw [if_neg hc] at h
      rcases Nat.eq_or_lt_of_le h1 with he | hl
      · rw [← he]
        revert hc; cases cond r0 <;> simp
      · exact ih (r0 + 1) h j hl (by omega)

theorem scanFrom_min (cond : Nat → Bool) :
    ∀ fuel r0 m, r0 ≤ m → m < r0 + fuel → cond m = true →
      ∃ m2, scanFrom cond r0 fuel = some m2 ∧ m2 ≤ m := by
  intro fuel
  induction fuel with
  | zero => intro r0 m h1 h2; omega
  | succ n ih =>
    intro r0 m h1 h2 h3
    unfold scanFrom
    by_cases hc : cond r0 = true
    · exact ⟨r0, by rw [if_pos hc], h1⟩
    · rw [if_neg hc]
      have hne : r0 ≠ m := fun he => hc (he ▸ h3)
      obtain ⟨m2, hm2, hle⟩ := ih (r0 + 1) m (by omega) (by omega) h3
      exact ⟨m2, hm2, hle⟩

/- ------------------------------------------------------------------
   Line-geometry lemmas.
   ------------------------------------------------------------------ -/

theorem lineAt_cons_zero (l : List Char) (ls : Lines) : lineAt (l :: ls) 0 = l := rfl

theorem lineAt_cons_succ (l : List Char) (ls : Lines) (i : Nat) :
    lineAt (l :: ls) (i + 1) = lineAt ls i := rfl

theorem lineAt_of_le (ls : Lines) (i : Nat) (h : ls.length ≤ i) :
    lineAt ls i = [] :=
  List.getD_eq_default ls [] h

theorem lineStart_zero (ls : Lines) : lineStart ls 0 = 0 := by
  cases ls <;> rfl

theorem lineStart_le_succ (ls : Lines) : ∀ i, lineStart ls i ≤ lineStart ls (i + 1) := by
  induction ls with
  | nil => intro i; cases i <;> simp [lineStart]
  | cons l ls ih =>
    intro i
    cases i with
    | zero => show 0 ≤ _; omega
    | succ i =>
      show l.length + 1 + lineStart ls i ≤ l.length + 1 + lineStart ls (i + 1)
      have := ih i
      omega

theorem lineStart_mono (ls : Lines) {i j : Nat} (h : i ≤ j) :
    lineStart ls i ≤ lineStart ls j := by
  induction j with
  | zero => cases Nat.le_zero.1 h; exact Nat.le_refl _
  | succ j ih =>
    rcases Nat.eq_or_lt_of_le h with he | hl
    · subst he; exact Nat.le_refl _
    · exact Nat.le_trans (ih (by omega)) (lineStart_le_succ ls j)

theorem lineStart_succ_eq (ls : Lines) : ∀ i, i < ls.length →
    lineStart ls (i + 1) = lineStart ls i + (lineAt ls i).length + 1 := by
  induction ls with
  | nil => intro i h; simp at h
  | cons l ls ih =>
    intro i h
    cases i with
    | zero =>
      show l.length + 1 + lineStart ls 0 = 0 + l.length + 1
      rw [lineStart_zero]
      omega
    | succ i =>
      show l.length + 1 + lineStart ls (i + 1) = l.length + 1 + lineStart ls i + _ + 1
      rw [ih i (by simpa using Nat.lt_of_succ_lt_succ h), lineAt_cons_succ]
      omega

theorem lineStart_lt (ls : Lines) {i j : Nat} (hij : i < j) (hi : i < ls.length) :
    lineStart ls i < lineStart ls j := by
  have h1 := lineStart_succ_eq ls i hi
  have h2 := lineStart_mono ls (show i + 1 ≤ j from hij)
  omega

theorem rowOf_within (ls : Lines) : ∀ i c, i < ls.length →
    c ≤ (lineAt ls i).length → rowOf ls (lineStart ls i + c) = i := by
  induction ls with
  | nil => intro i c h; simp at h
  | cons l ls ih =>
    intro i c h hc
    cases i with
    | zero =>
      show rowOf (l :: ls) (0 + c) = 0
      unfold rowOf
      rw [if_pos (by simpa using hc)]
    | succ i =>
      show rowOf (l :: ls) (l.length + 1 + lineStart ls i + c) = i + 1
      unfold rowOf
      rw [if_neg (by omega)]
      have : l.length + 1 + lineStart ls i + c - (l.length + 1) =
          lineStart ls i + c := by omega
      rw [this, ih i c (by simpa using Nat.lt_of_succ_lt_succ h) hc]
      omega

theorem rowOf_lineStart (ls : Lines) (i : Nat) (h : i < ls.length) :
    rowOf ls (lineStart ls i) = i := by
  have := rowOf_within ls i 0 h (Nat.zero_le _)
  simpa using this

theorem rowOf_total (ls : Lines) : ∀ p, lineStart ls ls.length ≤ p →
    rowOf ls p = ls.length := by
  induction ls with
  | nil => intro p _; rfl
  | cons l ls ih =>
    intro p h
    have hlen : (l :: ls).length = ls.length + 1 := rfl
    rw [hlen] at h
    have hs : lineStart (l :: ls) (ls.length + 1) =
        l.length + 1 + lineStart ls ls.length := rfl
    rw [hs] at h
    unfold rowOf
    rw [if_neg (by omega)]
    rw [ih (p - (l.length + 1)) (by omega), hlen]
    omega

/- ------------------------------------------------------------------
   Headline / content-region structure lemmas.
   ------------------------------------------------------------------ -/

theorem headlineLevel_nil : headlineLevel ([] : List Char) = none := by
  rfl

theorem headline_row_lt_length (ls : Lines) (r lv : Nat)
    (h : headlineLevel (lineAt ls r) = some lv) : r < ls.length := by
  by_contra hge
  rw [lineAt_of_le ls r (by omega), headlineLevel_nil] at h
  cases h

theorem contentBound_le_length (ls : Lines) (r lv : Nat) :
    contentBound ls r lv ≤ ls.length := by
  unfold contentBound
  cases hf : findParentRow ls (r + 1) lv with
  | none => dsimp only; exact Nat.le_refl _
  | some m =>
    dsimp only
    unfold findParentRow at hf
    obtain ⟨h1, h2, -, -⟩ := scanFrom_some _ _ _ _ hf
    omega

theorem contentBound_gt (ls : Lines) (r lv : Nat) (h : r < ls.length) :
    r < contentBound ls r lv := by
  unfold contentBound
  cases hf : findParentRow ls (r + 1) lv with
  | none => dsimp only; omega
  | some m =>
    dsimp only
    unfold findParentRow at hf
    obtain ⟨h1, -, -, -⟩ := scanFrom_some _ _ _ _ hf
    omega

theorem contentBound_inside (ls : Lines) (r lv j lv2 : Nat)
    (hj1 : r + 1 ≤ j) (hj2 : j < contentBound ls r lv)
    (hl : headlineLevel (lineAt ls j) = some lv2) : lv < lv2 := by
  have hjlen : j < ls.length := headline_row_lt_length ls j lv2 hl
  unfold contentBound at hj2
  cases hf : findParentRow ls (r + 1) lv with
  | some m =>
    rw [hf] at hj2
    unfold findParentRow at hf
    obtain ⟨-, -, -, hmin⟩ := scanFrom_some _ _ _ _ hf
    have hc := hmin j hj1 hj2
    simp only [hl] at hc
    simp at hc
    omega
  | none =>
    rw [hf] at hj2
    unfold findParentRow at hf
    have hc := scanFrom_none _ _ _ hf j hj1 (by omega)
    simp only [hl] at hc
    simp at hc
    omega

theorem contentBound_hit (ls : Lines) (r lv : Nat)
    (h : contentBound ls r lv < ls.length) :
    ∃ lv2, headlineLevel (lineAt ls (contentBound ls r lv)) = some lv2 ∧
      lv2 ≤ lv := by
  unfold contentBound at h ⊢
  cases hf : findParentRow ls (r + 1) lv with
  | none => rw [hf] at h; dsimp only at h; omega
  | some m =>
    rw [hf] at h
    dsimp only at h ⊢
    unfold findParentRow at hf
    obtain ⟨-, -, hc, -⟩ := scanFrom_some _ _ _ _ hf
    cases hl : headlineLevel (lineAt ls m) with
    | none => simp only [hl] at hc; simp at hc
    | some lv2 =>
      simp only [hl] at hc
      simp at hc
      exact ⟨lv2, rfl, hc⟩

theorem contentBound_nested (ls : Lines) (r lv i lvi : Nat)
    (hi1 : r + 1 ≤ i) (hi2 : i < contentBound ls r lv)
    (hl : headlineLevel (lineAt ls i) = some lvi) :
    contentBound ls i lvi ≤ contentBound ls r lv := by
  have hB := contentBound_le_length ls r lv
  have hBi := contentBound_le_length ls i lvi
  by_cases hBlt : contentBound ls r lv < ls.length
  · obtain ⟨lv2, hl2, hle⟩ := contentBound_hit ls r lv hBlt
    have hlv : lv < lvi := contentBound_inside ls r lv i lvi hi1 hi2 hl
    have hcond : (fun j => match headlineLevel (lineAt ls j) with
        | some lv3 => decide (lv3 ≤ lvi)
        | none => false) (contentBound ls r lv) = true := by
      simp only [hl2]
      simp
      omega
    have h1 : i + 1 ≤ contentBound ls r lv := by omega
    have h2 : contentBound ls r lv < (i + 1) + (ls.length - (i + 1)) := by omega
    obtain ⟨m2, hm2, hle2⟩ := scanFrom_min
      (fun j => match headlineLevel (lineAt ls j) with
        | some lv3 => decide (lv3 ≤ lvi)
        | none => false)
      (ls.length - (i + 1)) (i + 1) (contentBound ls r lv) h1 h2 hcond
    have hfp : findParentRow ls (i + 1) lvi = some m2 := hm2
    have heq : contentBound ls i lvi = m2 := by
      unfold contentBound
      rw [hfp]
    omega
  · omega

theorem contentRegionRow_some (ls : Lines) (r : Nat) (s : Region)
    (h : contentRegionRow ls r = some s) :
    ∃ lv, headlineLevel (lineAt ls r) = some lv ∧
      r + 1 < contentBound ls r lv ∧
      s.a = lineStart ls (r + 1) ∧
      s.b = lineStart ls (contentBound ls r lv) - 1 := by
  unfold contentRegionRow at h
  cases hl : headlineLevel (lineAt ls r) with
  | none => rw [hl] at h; cases h
  | some lv =>
    rw [hl] at h
    dsimp only at h
    by_cases hb : r + 1 < contentBound ls r lv
    · rw [if_pos hb] at h
      injection h with h
      exact ⟨lv, rfl, hb, by rw [← h], by rw [← h]⟩
    · rw [if_neg hb] at h; cases h

/-- Full structure of a nonempty content region at row `r`: its level,
bound, endpoints and their rows. -/
theorem contentRegionRow_struct (ls : Lines) (r : Nat) (s : Region)
    (h : contentRegionRow ls r = some s) :
    ∃ lv, headlineLevel (lineAt ls r) = some lv ∧
      r + 1 < contentBound ls r lv ∧ contentBound ls r lv ≤ ls.length ∧
      s.a = lineStart ls (r + 1) ∧
      s.b = lineStart ls (contentBound ls r lv) - 1 ∧
      s.b = lineStart ls (contentBound ls r lv - 1) +
        (lineAt ls (contentBound ls r lv - 1)).length ∧
      rowOf ls s.a = r + 1 ∧ rowOf ls s.b = contentBound ls r lv - 1 ∧
      s.a ≤ s.b := by
  obtain ⟨lv, hl, hb, ha, hbnd⟩ := contentRegionRow_some ls r s h
  have hBle : contentBound ls r lv ≤ ls.length := contentBound_le_length ls r lv
  have hr1 : r + 1 < ls.length := by omega
  have h2 : lineStart ls (contentBound ls r lv) =
      lineStart ls (contentBound ls r lv - 1) +
        (lineAt ls (contentBound ls r lv - 1)).length + 1 := by
    have h3 := lineStart_succ_eq ls (contentBound ls r lv - 1) (by omega)
    rw [show contentBound ls r lv - 1 + 1 = contentBound ls r lv by omega] at h3
    exact h3
  have hsb : s.b = lineStart ls (contentBound ls r lv - 1) +
      (lineAt ls (contentBound ls r lv - 1)).length := by
    rw [hbnd, h2]
    omega
  refine ⟨lv, hl, hb, hBle, ha, hbnd, hsb, ?_, ?_, ?_⟩
  · rw [ha]; exact rowOf_lineStart ls (r + 1) hr1
  · rw [hsb]; exact rowOf_within ls (contentBound ls r lv - 1) _ (by omega)
      (Nat.le_refl _)
  · rw [ha, hsb]
    have := lineStart_mono ls (show r + 1 ≤ contentBound ls r lv - 1 by omega)
    omega

/- ------------------------------------------------------------------
   Equations and frame lemmas of the folding command.
   ------------------------------------------------------------------ -/

theorem is_scope_headline_of_level (ls : Lines) (p lv : Nat)
    (h : levelAtPoint ls p = some lv) : is_scope_headline ls p = true := by
  unfold is_scope_headline
  rw [h]
  rfl

theorem foldOrUnfoldAux_zero (v : View) (p : Nat) :
    foldOrUnfoldAux 0 v p = (v, false) := rfl

theorem foldOrUnfoldAux_nohead (fuel : Nat) (v : View) (p : Nat)
    (h : levelAtPoint v.lines p = none) :
    foldOrUnfoldAux (fuel + 1) v p = (v, false) := by
  unfold foldOrUnfoldAux
  rw [h]

theorem foldOrUnfoldAux_nocontent (fuel : Nat) (v : View) (p lv : Nat)
    (h : levelAtPoint v.lines p = some lv)
    (h2 : contentRegion v.lines p = none) :
    foldOrUnfoldAux (fuel + 1) v p = (v, true) := by
  unfold foldOrUnfoldAux
  rw [h]
  dsimp only
  rw [is_scope_headline_of_level v.lines p lv h, if_pos rfl, h2]

theorem foldOrUnfoldAux_folded (fuel : Nat) (v : View) (p lv : Nat) (cr : Region)
    (h : levelAtPoint v.lines p = some lv)
    (h2 : contentRegion v.lines p = some cr)
    (h3 : is_region_totally_folded v (some cr) = true) :
    foldOrUnfoldAux (fuel + 1) v p = (unfold_yet_fold_subheads fuel v cr, true) := by
  unfold foldOrUnfoldAux
  rw [h]
  dsimp only
  rw [is_scope_headline_of_level v.lines p lv h, if_pos rfl, h2]
  dsimp only
  rw [h3, if_pos rfl]
  rfl

theorem foldOrUnfoldAux_notfolded (fuel : Nat) (v : View) (p lv : Nat)
    (cr : Region)
    (h : levelAtPoint v.lines p = some lv)
    (h2 : contentRegion v.lines p = some cr)
    (h3 : is_region_totally_folded v (some cr) = false) :
    foldOrUnfoldAux (fuel + 1) v p = (viewFold v cr, true) := by
  unfold foldOrUnfoldAux
  rw [h]
  dsimp only
  rw [is_scope_headline_of_level v.lines p lv h, if_pos rfl, h2]
  dsimp only
  rw [h3, if_neg Bool.false_ne_true]

theorem foldsOnly_refl (v : View) : FoldsOnly v v := ⟨rfl, rfl, rfl, rfl⟩

theorem foldsOnly_trans {u v w : View} (h1 : FoldsOnly u v)
    (h2 : FoldsOnly v w) : FoldsOnly u w := by
  obtain ⟨a1, b1, c1, d1⟩ := h1
  obtain ⟨a2, b2, c2, d2⟩ := h2
  exact ⟨a2.trans a1, b2.trans b1, c2.trans c1, d2.trans d1⟩

theorem foldsOnly_viewFold (v : View) (r : Region) :
    FoldsOnly v (viewFold v r) := by
  unfold viewFold
  by_cases h : r ∈ v.folds
  · rw [if_pos h]; exact foldsOnly_refl v
  · rw [if_neg h]; exact ⟨rfl, rfl, rfl, rfl⟩

theorem foldsOnly_viewUnfold (v : View) (r : Region) :
    FoldsOnly v (viewUnfold v r) := ⟨rfl, rfl, rfl, rfl⟩

theorem foldLinesGo_foldsOnly (step : View → Nat → View)
    (h : ∀ w i, FoldsOnly w (step w i)) :
    ∀ k v i, FoldsOnly v (foldLinesGo step v i k) := by
  intro k
  induction k with
  | zero => intro v i; exact foldsOnly_refl v
  | succ n ih =>
    intro v i
    exact foldsOnly_trans (h v i) (ih (step v i) (i + 1))

theorem foldOrUnfoldAux_foldsOnly :
    ∀ fuel (v : View) (p : Nat), FoldsOnly v (foldOrUnfoldAux fuel v p).1 := by
  intro fuel
  induction fuel with
  | zero => intro v p; exact foldsOnly_refl v
  | succ n ih =>
    intro v p
    cases hl : levelAtPoint v.lines p with
    | none => rw [foldOrUnfoldAux_nohead n v p hl]; exact foldsOnly_refl v
    | some lv =>
      cases hcr : contentRegion v.lines p with
      | none =>
        rw [foldOrUnfoldAux_nocontent n v p lv hl hcr]
        exact foldsOnly_refl v
      | some cr =>
        by_cases h3 : is_region_totally_folded v (some cr) = true
        · rw [foldOrUnfoldAux_folded n v p lv cr hl hcr h3]
          show FoldsOnly v (unfold_yet_fold_subheads n v cr)
          unfold unfold_yet_fold_subheads
          refine foldsOnly_trans (foldsOnly_viewUnfold v cr) ?_
          exact foldLinesGo_foldsOnly _ (fun w i => ih w _) _ _ _
        · have h3f : is_region_totally_folded v (some cr) = false := by
            revert h3; cases is_region_totally_folded v (some cr) <;> simp
          rw [foldOrUnfoldAux_notfolded n v p lv cr hl hcr h3f]
          exact foldsOnly_viewFold v cr

theorem smartRunFoldLoop_foldsOnly :
    ∀ (rs : List Region) (v : View), FoldsOnly v (smartRunFoldLoop v rs).1 := by
  intro rs
  induction rs with
  | nil => intro v; exact foldsOnly_refl v
  | cons r rs ih =>
    intro v
    exact foldsOnly_trans
      (foldOrUnfoldAux_foldsOnly (viewFuel v) v r.a)
      (ih (fold_or_unfold_headline_at_point v r.a).1)

/- ------------------------------------------------------------------
   Region and fold-state helper lemmas.
   ------------------------------------------------------------------ -/

theorem contains_iff (r s : Region) :
    r.contains s = true ↔ (r.a ≤ s.a ∧ s.b ≤ r.b) := by
  simp [Region.contains]

theorem contains_trans {r s t : Region} (h1 : r.contains s = true)
    (h2 : s.contains t = true) : r.contains t = true := by
  rw [contains_iff] at *
  omega

theorem totally_folded_iff (v : View) (s : Region) :
    is_region_totally_folded v (some s) = true ↔
      (s.a = s.b ∨ ∃ f ∈ v.folds, f.contains s = true) := by
  unfold is_region_totally_folded
  simp [List.any_eq_true]

theorem viewUnfold_id (v : View) (r : Region)
    (h : ∀ g ∈ v.folds, r.contains g = false) : viewUnfold v r = v := by
  unfold viewUnfold
  have hf : v.folds.filter (fun f => ¬ r.contains f) = v.folds := by
    apply List.filter_eq_self.2
    intro g hg
    simp [h g hg]
  rw [hf]

theorem contentRegion_lineStart_lt (ls : Lines) (i : Nat) (h : i < ls.length) :
    contentRegion ls (lineStart ls i) = contentRegionRow ls i := by
  unfold contentRegion
  rw [rowOf_lineStart ls i h]

theorem levelAtPoint_lineStart_lt (ls : Lines) (i : Nat) (h : i < ls.length) :
    levelAtPoint ls (lineStart ls i) = headlineLevel (lineAt ls i) := by
  unfold levelAtPoint
  rw [rowOf_lineStart ls i h]

theorem contentRegionRow_of_ge (ls : Lines) (j : Nat) (h : ls.length ≤ j) :
    contentRegionRow ls j = none := by
  unfold contentRegionRow
  rw [lineAt_of_le ls j h, headlineLevel_nil]

/- ------------------------------------------------------------------
   The fold command is a no-op on covered points.
   ------------------------------------------------------------------ -/

theorem foldLinesGo_noop (fuel : Nat)
    (hsingle : ∀ (v : View) (p : Nat), CoveredAt v p →
      (foldOrUnfoldAux fuel v p).1 = v) :
    ∀ (k : Nat) (v : View) (i : Nat),
      (∀ j, i ≤ j → j < i + k → CoveredAt v (lineStart v.lines j)) →
      foldLinesGo (fun w j => (foldOrUnfoldAux fuel w (text_point w.lines j 0)).1)
        v i k = v := by
  intro k
  induction k with
  | zero => intro v i _; rfl
  | succ n ih =>
    intro v i hyp
    show foldLinesGo _ ((foldOrUnfoldAux fuel v (text_point v.lines i 0)).1)
      (i + 1) n = v
    have hstep : (foldOrUnfoldAux fuel v (text_point v.lines i 0)).1 = v := by
      apply hsingle
      have ht : text_point v.lines i 0 = lineStart v.lines i := rfl
      rw [ht]
      exact hyp i (Nat.le_refl i) (by omega)
    rw [hstep]
    exact ih v (i + 1) (fun j h1 h2 => hyp j (by omega) (by omega))

theorem foldOrUnfoldAux_noop :
    ∀ (fuel : Nat) (v : View) (p : Nat), CoveredAt v p →
      (foldOrUnfoldAux fuel v p).1 = v := by
  intro fuel
  induction fuel with
  | zero => intro v p _; rfl
  | succ n ih =>
    intro v p hyp
    cases hl : levelAtPoint v.lines p with
    | none => rw [foldOrUnfoldAux_nohead n v p hl]
    | some lv =>
      cases hcr : contentRegion v.lines p with
      | none => rw [foldOrUnfoldAux_nocontent n v p lv hl hcr]
      | some s =>
        obtain ⟨hfold, hins⟩ := hyp s hcr
        rw [foldOrUnfoldAux_folded n v p lv s hl hcr hfold]
        show unfold_yet_fold_subheads n v s = v
        unfold unfold_yet_fold_subheads
        rw [viewUnfold_id v s hins]
        show foldLinesGo
          (fun w i => (foldOrUnfoldAux n w (text_point w.lines i 0)).1)
          v (rowOf v.lines s.a) (rowOf v.lines s.b + 1 - rowOf v.lines s.a) = v
        have hcrr : contentRegionRow v.lines (rowOf v.lines p) = some s := hcr
        obtain ⟨lv2, hl2, hb2, hBle2, ha2, hbnd2, hsb2, hra, hrb, hab⟩ :=
          contentRegionRow_struct v.lines (rowOf v.lines p) s hcrr
        rw [hra, hrb]
        apply foldLinesGo_noop n ih
        intro j hj1 hj2
        have hjB : j < contentBound v.lines (rowOf v.lines p) lv2 := by omega
        intro s2 hs2
        have hjlen : j < v.lines.length := by omega
        rw [contentRegion_lineStart_lt v.lines j hjlen] at hs2
        obtain ⟨lvj, hlj, hbj, hBlej, haj, hbndj, hsbj, hraj, hrbj, habj⟩ :=
          contentRegionRow_struct v.lines j s2 hs2
        have hnest : contentBound v.lines j lvj ≤
            contentBound v.lines (rowOf v.lines p) lv2 :=
          contentBound_nested v.lines (rowOf v.lines p) lv2 j lvj hj1 hjB hlj
        have hsa : s.a < s2.a := by
          rw [ha2, haj]
          have h1 : lineStart v.lines (rowOf v.lines p + 1) <
              lineStart v.lines (rowOf v.lines p + 2) :=
            lineStart_lt v.lines (by omega) (by omega)
          have h2 : lineStart v.lines (rowOf v.lines p + 2) ≤
              lineStart v.lines (j + 1) :=
            lineStart_mono v.lines (by omega)
          omega
        have hsb2le : s2.b ≤ s.b := by
          rw [hbnd2, hbndj]
          have := lineStart_mono v.lines hnest
          omega
        have hcont : s.contains s2 = true := by
          rw [contains_iff]
          omega
        constructor
        · rcases (totally_folded_iff v s).1 hfold with hdeg | ⟨f, hfm, hfc⟩
          · exfalso; omega
          · exact (totally_folded_iff v s2).2
              (Or.inr ⟨f, hfm, contains_trans hfc hcont⟩)
        · intro g hg
          by_contra hgc
          have hgc2 : s2.contains g = true := by
            revert hgc; cases s2.contains g <;> simp
          have hgc3 := contains_trans hcont hgc2
          rw [hins g hg] at hgc3
          cases hgc3

/- ------------------------------------------------------------------
   The line walk of unfold_yet_fold_subheads: main invariant.
   ------------------------------------------------------------------ -/

theorem contains_self (r : Region) : r.contains r = true := by
  rw [contains_iff]
  omega

theorem totally_folded_viewFold (v : View) (r s : Region)
    (h : is_region_totally_folded v (some s) = true) :
    is_region_totally_folded (viewFold v r) (some s) = true := by
  rcases (totally_folded_iff v s).1 h with hd | ⟨f, hm, hc⟩
  · exact (totally_folded_iff _ s).2 (Or.inl hd)
  · refine (totally_folded_iff _ s).2 (Or.inr ⟨f, ?_, hc⟩)
    unfold viewFold
    by_cases hmem : r ∈ v.folds
    · rw [if_pos hmem]; exact hm
    · rw [if_neg hmem]; exact List.mem_append_left _ hm

/-- Walking the lines of the content region of the headline at row `r`
(level `lv`) preserves the loop invariant and completes it up to the
content bound. -/
theorem foldLinesGo_inv (ls : Lines) (r lv : Nat)
    (fuel : Nat) (hfuel : 1 ≤ fuel) :
    ∀ (k : Nat) (v : View) (i : Nat),
      r + 1 ≤ i → i + k = contentBound ls r lv →
      LoopInv ls r lv i v →
      LoopInv ls r lv (contentBound ls r lv)
        (foldLinesGo
          (fun w j => (foldOrUnfoldAux fuel w (text_point w.lines j 0)).1)
          v i k) := by
  cases fuel with
  | zero => exact absurd hfuel (by omega)
  | succ f2 =>
  intro k
  induction k with
  | zero =>
    intro v i hi hk hinv
    have hieq : i = contentBound ls r lv := by omega
    subst hieq
    exact hinv
  | succ n ih =>
    intro v i hi hk hinv
    obtain ⟨hlines, hwf, hout, hfld⟩ := hinv
    have hBle : contentBound ls r lv ≤ ls.length := contentBound_le_length ls r lv
    have hiB : i < contentBound ls r lv := by omega
    have hilen : i < ls.length := by omega
    have htp : text_point v.lines i 0 = lineStart v.lines i := rfl
    rw [show (foldLinesGo
        (fun w j => (foldOrUnfoldAux (f2 + 1) w (text_point w.lines j 0)).1)
        v i (n + 1)) =
      (foldLinesGo
        (fun w j => (foldOrUnfoldAux (f2 + 1) w (text_point w.lines j 0)).1)
        ((foldOrUnfoldAux (f2 + 1) v (text_point v.lines i 0)).1) (i + 1) n)
      from rfl]
    cases hcri : contentRegionRow ls i with
    | none =>
      have hcrp : contentRegion v.lines (text_point v.lines i 0) = none := by
        rw [htp, hlines, contentRegion_lineStart_lt ls i hilen]
        exact hcri
      have hst : (foldOrUnfoldAux (f2 + 1) v (text_point v.lines i 0)).1 = v := by
        cases hlev : levelAtPoint v.lines (text_point v.lines i 0) with
        | none => rw [foldOrUnfoldAux_nohead f2 v _ hlev]
        | some lvx => rw [foldOrUnfoldAux_nocontent f2 v _ lvx hlev hcrp]
      rw [hst]
      apply ih v (i + 1) (by omega) (by omega)
      refine ⟨hlines, hwf, ?_, ?_⟩
      · intro f hf
        rcases hout f hf with h | ⟨j, s, h1, h2, h3, h4, h5⟩
        · exact Or.inl h
        · exact Or.inr ⟨j, s, h1, by omega, h3, h4, h5⟩
      · intro j s hj1 hj2 hcr
        rcases Nat.lt_succ_iff_lt_or_eq.1 hj2 with hj | hj
        · exact hfld j s hj1 hj hcr
        · subst hj
          rw [hcri] at hcr
          cases hcr
    | some si =>
      obtain ⟨lvi, hli, hbi, hBlei, hai, hbndi, hsbi, hrai, hrbi, habi⟩ :=
        contentRegionRow_struct ls i si hcri
      have hlvp : levelAtPoint v.lines (text_point v.lines i 0) = some lvi := by
        rw [htp, hlines, levelAtPoint_lineStart_lt ls i hilen]
        exact hli
      have hcrp : contentRegion v.lines (text_point v.lines i 0) = some si := by
        rw [htp, hlines, contentRegion_lineStart_lt ls i hilen]
        exact hcri
      have hnest : contentBound ls i lvi ≤ contentBound ls r lv :=
        contentBound_nested ls r lv i lvi hi hiB hli
      have hsia : lineStart ls (r + 1) < si.a := by
        rw [hai]
        have h1 := lineStart_lt ls (show r + 1 < r + 2 by omega)
          (show r + 1 < ls.length by omega)
        have h2 := lineStart_mono ls (show r + 2 ≤ i + 1 by omega)
        omega
      have hsib : si.b ≤ lineStart ls (contentBound ls r lv) - 1 := by
        rw [hbndi]
        have := lineStart_mono ls hnest
        omega
      by_cases hfoldi : is_region_totally_folded v (some si) = true
      · -- the subtree at row i is hidden under an existing fold: no-op
        have hcov : CoveredAt v (text_point v.lines i 0) := by
          intro s2 hs2
          rw [hcrp] at hs2
          injection hs2 with hs2
          subst hs2
          refine ⟨hfoldi, ?_⟩
          intro g hg
          by_contra hgc
          have hgc2 : si.contains g = true := by
            revert hgc; cases si.contains g <;> simp
          rw [contains_iff] at hgc2
          rcases hout g hg with hg2 | ⟨j, s2, hj1, hj2, hcr2, hfe, hne⟩
          · have hwfg := hwf g hg
            omega
          · obtain ⟨lvj, hlj, hbj, hBlej, haj, hbndj, hsbj, hraj, hrbj, habj⟩ :=
              contentRegionRow_struct ls j s2 hcr2
            subst hfe
            rw [haj, hai] at hgc2
            have := lineStart_lt ls (show j + 1 < i + 1 by omega)
              (show j + 1 < ls.length by omega)
            omega
        have hst : (foldOrUnfoldAux (f2 + 1) v (text_point v.lines i 0)).1 = v :=
          foldOrUnfoldAux_noop (f2 + 1) v _ hcov
        rw [hst]
        apply ih v (i + 1) (by omega) (by omega)
        refine ⟨hlines, hwf, ?_, ?_⟩
        · intro f hf
          rcases hout f hf with h | ⟨j, s, h1, h2, h3, h4, h5⟩
          · exact Or.inl h
          · exact Or.inr ⟨j, s, h1, by omega, h3, h4, h5⟩
        · intro j s hj1 hj2 hcr
          rcases Nat.lt_succ_iff_lt_or_eq.1 hj2 with hj | hj
          · exact hfld j s hj1 hj hcr
          · subst hj
            rw [hcri] at hcr
            injection hcr with hcr
            subst hcr
            exact hfoldi
      · -- fold the subhead content region
        have hfoldif : is_region_totally_folded v (some si) = false := by
          revert hfoldi; cases is_region_totally_folded v (some si) <;> simp
        have hst : (foldOrUnfoldAux (f2 + 1) v (text_point v.lines i 0)).1 =
            viewFold v si :=
          by rw [foldOrUnfoldAux_notfolded f2 v _ lvi si hlvp hcrp hfoldif]
        have hnotmem : si ∉ v.folds := by
          intro hmem
          have hx : is_region_totally_folded v (some si) = true :=
            (totally_folded_iff v si).2 (Or.inr ⟨si, hmem, contains_self si⟩)
          rw [hfoldif] at hx
          cases hx
        have hfolds_eq : (viewFold v si).folds = v.folds ++ [si] := by
          unfold viewFold
          rw [if_neg hnotmem]
        have hsine : si.a < si.b := by
          rcases Nat.lt_or_ge si.a si.b with h | h
          · exact h
          · exfalso
            have hx : is_region_totally_folded v (some si) = true :=
              (totally_folded_iff v si).2 (Or.inl (by omega))
            rw [hfoldif] at hx
            cases hx
        rw [hst]
        apply ih (viewFold v si) (i + 1) (by omega) (by omega)
        refine ⟨(foldsOnly_viewFold v si).1.trans hlines, ?_, ?_, ?_⟩
        · intro f hf
          rw [hfolds_eq] at hf
          rcases List.mem_append.1 hf with hf | hf
          · exact hwf f hf
          · rw [List.mem_singleton.1 hf]
            omega
        · intro f hf
          rw [hfolds_eq] at hf
          rcases List.mem_append.1 hf with hf | hf
          · rcases hout f hf with h | ⟨j, s, h1, h2, h3, h4, h5⟩
            · exact Or.inl h
            · exact Or.inr ⟨j, s, h1, by omega, h3, h4, h5⟩
          · rw [List.mem_singleton.1 hf]
            exact Or.inr ⟨i, si, hi, by omega, hcri, rfl, hsine⟩
        · intro j s hj1 hj2 hcr
          rcases Nat.lt_succ_iff_lt_or_eq.1 hj2 with hj | hj
          · exact totally_folded_viewFold v si s (hfld j s hj1 hj hcr)
          · subst hj
            rw [hcri] at hcr
            injection hcr with hcr
            subst hcr
            refine (totally_folded_iff _ si).2 (Or.inr ⟨si, ?_, contains_self si⟩)
            rw [hfolds_eq]
            exact List.mem_append_right _ (List.mem_singleton.2 rfl)

/- ------------------------------------------------------------------
   The unfold branch of fold_or_unfold_headline_at_point.
   ------------------------------------------------------------------ -/

/-- Characterisation of `fold_or_unfold_headline_at_point` on a
headline whose nonempty content region is totally folded, in a
reachable fold state (folds well formed, each fold inside or strictly
outside the content region): the command reports a match and the
resulting fold state satisfies the completed loop invariant. -/
theorem unfold_branch_inv (v : View) (p lv : Nat) (cr : Region)
    (hlv : levelAtPoint v.lines p = some lv)
    (hcr : contentRegion v.lines p = some cr)
    (hwf : ∀ f ∈ v.folds, f.a ≤ f.b)
    (hreach : ∀ f ∈ v.folds,
      (cr.a ≤ f.a ∧ f.b ≤ cr.b) ∨ f.b < cr.a ∨ cr.b < f.a)
    (hfold : is_region_totally_folded v (some cr) = true) :
    (fold_or_unfold_headline_at_point v p).2 = true ∧
    cr.a = lineStart v.lines (rowOf v.lines p + 1) ∧
    cr.b = lineStart v.lines (contentBound v.lines (rowOf v.lines p) lv) - 1 ∧
    rowOf v.lines p + 1 < contentBound v.lines (rowOf v.lines p) lv ∧
    contentBound v.lines (rowOf v.lines p) lv ≤ v.lines.length ∧
    rowOf v.lines cr.a = rowOf v.lines p + 1 ∧
    rowOf v.lines cr.b = contentBound v.lines (rowOf v.lines p) lv - 1 ∧
    LoopInv v.lines (rowOf v.lines p) lv
      (contentBound v.lines (rowOf v.lines p) lv)
      (fold_or_unfold_headline_at_point v p).1 := by
  have hcrr : contentRegionRow v.lines (rowOf v.lines p) = some cr := hcr
  obtain ⟨lv2, hl2, hb2, hBle2, ha2, hbnd2, hsb2, hra2, hrb2, hab2⟩ :=
    contentRegionRow_struct v.lines (rowOf v.lines p) cr hcrr
  have hlveq : lv2 = lv := by
    have hlv2 : headlineLevel (lineAt v.lines (rowOf v.lines p)) = some lv := hlv
    rw [hl2] at hlv2
    exact Option.some.inj hlv2
  subst hlveq
  have hrplen : rowOf v.lines p < v.lines.length :=
    headline_row_lt_length v.lines (rowOf v.lines p) lv2 hl2
  have hlen1 : 1 ≤ v.lines.length := by omega
  unfold fold_or_unfold_headline_at_point viewFuel
  rw [foldOrUnfoldAux_folded v.lines.length v p lv2 cr hlv hcr hfold]
  refine ⟨rfl, ha2, hbnd2, hb2, hBle2, hra2, hrb2, ?_⟩
  unfold unfold_yet_fold_subheads
  show LoopInv _ _ _ _
    (foldLinesGo
      (fun w j => (foldOrUnfoldAux v.lines.length w (text_point w.lines j 0)).1)
      (viewUnfold v cr) (rowOf (viewUnfold v cr).lines cr.a)
      (rowOf (viewUnfold v cr).lines cr.b + 1 -
        rowOf (viewUnfold v cr).lines cr.a))
  have hulines : (viewUnfold v cr).lines = v.lines := rfl
  rw [hulines, hra2, hrb2]
  have hk : rowOf v.lines p + 1 +
      (contentBound v.lines (rowOf v.lines p) lv2 - 1 + 1 -
        (rowOf v.lines p + 1)) =
      contentBound v.lines (rowOf v.lines p) lv2 := by omega
  rw [show contentBound v.lines (rowOf v.lines p) lv2 - 1 + 1 -
      (rowOf v.lines p + 1) =
    contentBound v.lines (rowOf v.lines p) lv2 - 1 - rowOf v.lines p
    from by omega]
  apply foldLinesGo_inv v.lines (rowOf v.lines p) lv2 v.lines.length hlen1
    _ (viewUnfold v cr) (rowOf v.lines p + 1) (Nat.le_refl _) (by omega)
  -- initial invariant after the big unfold
  refine ⟨rfl, ?_, ?_, ?_⟩
  · intro f hf
    have hf2 : f ∈ v.folds := List.mem_of_mem_filter hf
    exact hwf f hf2
  · intro f hf
    obtain ⟨hf2, hpred⟩ := List.mem_filter.1 hf
    have hnc : cr.contains f = false := by
      revert hpred
      cases h : cr.contains f <;> simp [h]
    rw [← ha2, ← hbnd2]
    left
    rcases hreach f hf2 with hin | hout
    · exfalso
      have hc2 : cr.contains f = true := by rw [contains_iff]; exact hin
      rw [hnc] at hc2
      cases hc2
    · exact hout
  · intro j s hj1 hj2 _
    omega

/-- A state satisfying the completed loop invariant holds no fold
containing the walked content region: the region is unfolded. -/
theorem notFolded_of_inv (ls : Lines) (r lv : Nat) (cr : Region) (w : View)
    (hinv : LoopInv ls r lv (contentBound ls r lv) w)
    (ha : cr.a = lineStart ls (r + 1))
    (hbnd : cr.b = lineStart ls (contentBound ls r lv) - 1)
    (hb : r + 1 < contentBound ls r lv)
    (hBle : contentBound ls r lv ≤ ls.length)
    (hne : cr.a < cr.b) :
    is_region_totally_folded w (some cr) = false := by
  obtain ⟨hlines, hwf, hout, hfld⟩ := hinv
  cases hx : is_region_totally_folded w (some cr) with
  | false => rfl
  | true =>
    exfalso
    rcases (totally_folded_iff w cr).1 hx with hd | ⟨f, hm, hc⟩
    · omega
    · rw [contains_iff] at hc
      rcases hout f hm with hf2 | ⟨j, s, hj1, hj2, hcrj, hfe, hsne⟩
      · rw [← ha, ← hbnd] at hf2
        have := hwf f hm
        omega
      · subst hfe
        obtain ⟨lvj, hlj, hbj, hBlej, haj, hbndj, hsbj, hraj, hrbj, habj⟩ :=
          contentRegionRow_struct ls j f hcrj
        have hlt := lineStart_lt ls (show r + 1 < j + 1 by omega)
          (show r + 1 < ls.length by omega)
        rw [haj] at hc
        rw [ha] at hc
        omega

/-- C4: SmartFoldingCommand toggles folding at a headline.  For a point
on a headline with nonempty content region `cr`, in a reachable fold
state (folds well formed and each fold either inside `cr` or strictly
outside it), the command reports a match; if `cr` is totally folded the
command leaves it no longer totally folded (unfolds it), and otherwise
(including a partially folded `cr`) it leaves `cr` totally folded
(folds it). -/
theorem C4_toggle_folding (v : View) (p lv : Nat) (cr : Region)
    (hlv : levelAtPoint v.lines p = some lv)
    (hcr : contentRegion v.lines p = some cr)
    (hne : cr.a < cr.b)
    (hwf : ∀ f ∈ v.folds, f.a ≤ f.b)
    (hreach : ∀ f ∈ v.folds,
      (cr.a ≤ f.a ∧ f.b ≤ cr.b) ∨ f.b < cr.a ∨ cr.b < f.a) :
    (fold_or_unfold_headline_at_point v p).2 = true ∧
    (is_region_totally_folded v (some cr) = true →
      is_region_totally_folded (fold_or_unfold_headline_at_point v p).1
        (some cr) = false) ∧
    (is_region_totally_folded v (some cr) = false →
      is_region_totally_folded (fold_or_unfold_headline_at_point v p).1
        (some cr) = true) := by
  by_cases hfold : is_region_totally_folded v (some cr) = true
  · obtain ⟨hm, ha, hbnd, hb, hBle, hra, hrb, hinv⟩ :=
      unfold_branch_inv v p lv cr hlv hcr hwf hreach hfold
    refine ⟨hm, fun _ => ?_, fun hf => ?_⟩
    · exact notFolded_of_inv v.lines (rowOf v.lines p) lv cr _ hinv ha hbnd hb
        hBle hne
    · rw [hfold] at hf; cases hf
  · have hfoldf : is_region_totally_folded v (some cr) = false := by
      revert hfold; cases is_region_totally_folded v (some cr) <;> simp
    have heq : fold_or_unfold_headline_at_point v p = (viewFold v cr, true) := by
      unfold fold_or_unfold_headline_at_point viewFuel
      rw [foldOrUnfoldAux_notfolded v.lines.length v p lv cr hlv hcr hfoldf]
    rw [heq]
    refine ⟨rfl, fun hf => ?_, fun _ => ?_⟩
    · rw [hf] at hfoldf; cases hfoldf
    · have hnotmem : cr ∉ v.folds := by
        intro hmem
        have hx : is_region_totally_folded v (some cr) = true :=
          (totally_folded_iff v cr).2 (Or.inr ⟨cr, hmem, contains_self cr⟩)
        rw [hfoldf] at hx
        cases hx
      refine (totally_folded_iff _ cr).2 (Or.inr ⟨cr, ?_, contains_self cr⟩)
      show cr ∈ (viewFold v cr).folds
      unfold viewFold
      rw [if_neg hnotmem]
      exact List.mem_append_right _ (List.mem_singleton.2 rfl)

/-- C4 (witness): on a concrete buffer `# A / x` with nothing folded,
the command folds the content region. -/
theorem C4_toggle_folding_witness :
    (fold_or_unfold_headline_at_point
      ⟨[['#', ' ', 'A'], ['x']], [], [], none, "UTF-8"⟩ 0).2 = true ∧
    is_region_totally_folded
      (fold_or_unfold_headline_at_point
        ⟨[['#', ' ', 'A'], ['x']], [], [], none, "UTF-8"⟩ 0).1
      (some ⟨4, 5⟩) = true := by
  have h := C4_toggle_folding ⟨[['#', ' ', 'A'], ['x']], [], [], none, "UTF-8"⟩
    0 1 ⟨4, 5⟩ (by decide) (by decide) (by decide) (by decide) (by decide)
  exact ⟨h.1, h.2.2 (by decide)⟩

/-- C1: unfolding a totally folded headline preserves the fold state of
nested subheadlines recursively.  For a point on a headline with
nonempty, totally folded content region `cr`, in a reachable fold state,
the command unfolds `cr` while every subheadline row of `cr` (at any
nesting depth) whose content region was totally folded before remains
totally folded afterwards. -/
theorem C1_unfold_preserves_subfolds (v : View) (p lv : Nat) (cr : Region)
    (hlv : levelAtPoint v.lines p = some lv)
    (hcr : contentRegion v.lines p = some cr)
    (hne : cr.a < cr.b)
    (hwf : ∀ f ∈ v.folds, f.a ≤ f.b)
    (hreach : ∀ f ∈ v.folds,
      (cr.a ≤ f.a ∧ f.b ≤ cr.b) ∨ f.b < cr.a ∨ cr.b < f.a)
    (hfold : is_region_totally_folded v (some cr) = true) :
    (fold_or_unfold_headline_at_point v p).2 = true ∧
    is_region_totally_folded (fold_or_unfold_headline_at_point v p).1
      (some cr) = false ∧
    (∀ j s, rowOf v.lines cr.a ≤ j → j ≤ rowOf v.lines cr.b →
      contentRegionRow v.lines j = some s →
      is_region_totally_folded v (some s) = true →
      is_region_totally_folded (fold_or_unfold_headline_at_point v p).1
        (some s) = true) := by
  obtain ⟨hm, ha, hbnd, hb, hBle, hra, hrb, hinv⟩ :=
    unfold_branch_inv v p lv cr hlv hcr hwf hreach hfold
  refine ⟨hm,
    notFolded_of_inv v.lines (rowOf v.lines p) lv cr _ hinv ha hbnd hb hBle hne,
    ?_⟩
  intro j s hj1 hj2 hcrj _
  rw [hra] at hj1
  rw [hrb] at hj2
  exact hinv.2.2.2 j s hj1 (by omega) hcrj

/-- C1 (witness): on the concrete buffer `# A / ## B / x` with the
whole content of `# A` folded and the subheadline `## B` folded inside
it, the command unfolds `# A` and the subheadline stays folded. -/
theorem C1_unfold_preserves_subfolds_witness :
    (fold_or_unfold_headline_at_point
      ⟨[['#', ' ', 'A'], ['#', '#', ' ', 'B'], ['x']], [],
        [⟨4, 10⟩, ⟨9, 10⟩], none, "UTF-8"⟩ 0).2 = true ∧
    is_region_totally_folded
      (fold_or_unfold_headline_at_point
        ⟨[['#', ' ', 'A'], ['#', '#', ' ', 'B'], ['x']], [],
          [⟨4, 10⟩, ⟨9, 10⟩], none, "UTF-8"⟩ 0).1
      (some ⟨4, 10⟩) = false ∧
    is_region_totally_folded
      (fold_or_unfold_headline_at_point
        ⟨[['#', ' ', 'A'], ['#', '#', ' ', 'B'], ['x']], [],
          [⟨4, 10⟩, ⟨9, 10⟩], none, "UTF-8"⟩ 0).1
      (some ⟨9, 10⟩) = true := by
  have h := C1_unfold_preserves_subfolds
    ⟨[['#', ' ', 'A'], ['#', '#', ' ', 'B'], ['x']], [],
      [⟨4, 10⟩, ⟨9, 10⟩], none, "UTF-8"⟩ 0 1 ⟨4, 10⟩
    (by decide) (by decide) (by decide) (by decide) (by decide) (by decide)
  exact ⟨h.1, h.2.1, h.2.2 1 ⟨9, 10⟩ (by decide) (by decide) (by decide)
    (by decide)⟩

/- ------------------------------------------------------------------
   C7: termination of the global folding loops.
   ------------------------------------------------------------------ -/

theorem find_headline_some (ls : Lines) (p : Nat) (skip : Bool) (reg : Region)
    (h : find_headline ls p skip = some reg) :
    ∃ m, (if skip then rowOf ls p + 1 else rowOf ls p) ≤ m ∧ m < ls.length ∧
      reg.a = lineStart ls m ∧ rowOf ls reg.a = m := by
  unfold find_headline at h
  dsimp only at h
  cases hf : findAnyHeadlineRow ls (if skip then rowOf ls p + 1 else rowOf ls p)
    with
  | none => rw [hf] at h; cases h
  | some j =>
    rw [hf] at h
    injection h with h
    unfold findAnyHeadlineRow at hf
    obtain ⟨h1, h2, -, -⟩ := scanFrom_some _ _ _ _ hf
    have hjlen : j < ls.length := by omega
    refine ⟨j, h1, hjlen, ?_, ?_⟩
    · rw [← h]
    · rw [← h]
      show rowOf ls (lineStart ls j) = j
      exact rowOf_lineStart ls j hjlen

theorem find_headline_skip_some (ls : Lines) (p : Nat) (reg : Region)
    (h : find_headline ls p true = some reg) :
    rowOf ls p + 1 ≤ rowOf ls reg.a ∧ rowOf ls reg.a < ls.length := by
  obtain ⟨m, hm1, hm2, hma, hmr⟩ := find_headline_some ls p true reg h
  rw [hmr]
  exact ⟨by simpa using hm1, hm2⟩

/-- The end of a nonempty content region lies on a strictly later row
than its point, before the end of the buffer. -/
theorem contentRegion_advance (ls : Lines) (point : Nat) (s : Region)
    (h : contentRegion ls point = some s) :
    rowOf ls point + 1 ≤ rowOf ls s.b ∧ rowOf ls s.b < ls.length := by
  obtain ⟨lv, -, hb, hBle, -, -, -, -, hrb, -⟩ :=
    contentRegionRow_struct ls (rowOf ls point) s h
  rw [hrb]
  omega

theorem isGlobalFoldedLoop_isSome (v : View) :
    ∀ (fuel point : Nat), v.lines.length - rowOf v.lines point < fuel →
      (isGlobalFoldedLoop v fuel point).isSome = true := by
  intro fuel
  induction fuel with
  | zero => intro point h; omega
  | succ n ih =>
    intro point h
    unfold isGlobalFoldedLoop
    dsimp only
    cases hcr : contentRegion v.lines point with
    | none =>
      dsimp only
      by_cases hc : is_region_totally_folded v none = false
      · rw [if_pos hc]; rfl
      · rw [if_neg hc]
        cases hfh : find_headline v.lines point true with
        | none => rfl
        | some reg =>
          apply ih
          have hadv := find_headline_skip_some v.lines point reg hfh
          omega
    | some s =>
      dsimp only
      by_cases hc : is_region_totally_folded v (some s) = false
      · rw [if_pos hc]; rfl
      · rw [if_neg hc]
        cases hfh : find_headline v.lines s.b true with
        | none => rfl
        | some reg =>
          apply ih
          have hadv := find_headline_skip_some v.lines s.b reg hfh
          have hadv2 := contentRegion_advance v.lines point s hcr
          omega

theorem foldAllLoop_isSome :
    ∀ (fuel : Nat) (v : View) (point : Nat),
      v.lines.length - rowOf v.lines point < fuel →
      (foldAllLoop fuel v point).isSome = true := by
  intro fuel
  induction fuel with
  | zero => intro v point h; omega
  | succ n ih =>
    intro v point h
    unfold foldAllLoop
    dsimp only
    cases hcr : contentRegion v.lines point with
    | none =>
      dsimp only
      cases hfh : find_headline v.lines point true with
      | none => rfl
      | some reg =>
        apply ih
        have hadv := find_headline_skip_some v.lines point reg hfh
        omega
    | some s =>
      dsimp only
      have hl : (viewFold v s).lines = v.lines := (foldsOnly_viewFold v s).1
      cases hfh : find_headline (viewFold v s).lines s.b true with
      | none => rfl
      | some reg =>
        apply ih
        rw [hl]
        rw [hl] at hfh
        have hadv := find_headline_skip_some v.lines s.b reg hfh
        have hadv2 := contentRegion_advance v.lines point s hcr
        omega

/-- C7: the headline-scanning loops of `is_global_folded` and
`fold_all` terminate: with fuel one more than the number of buffer
lines (each iteration advances the search row strictly forward) they
always deliver a result, from any starting point, and so do
`is_global_folded` itself and `fold_all` whenever a headline exists. -/
theorem C7_folding_loops_terminate (v : View) (p : Nat) :
    (isGlobalFoldedLoop v (viewFuel v) p).isSome = true ∧
    (foldAllLoop (viewFuel v) v p).isSome = true ∧
    (is_global_folded v).isSome = true ∧
    (∀ reg, find_headline v.lines 0 false = some reg →
      (fold_all v).isSome = true) := by
  refine ⟨?_, ?_, ?_, ?_⟩
  · apply isGlobalFoldedLoop_isSome
    unfold viewFuel
    omega
  · apply foldAllLoop_isSome
    unfold viewFuel
    omega
  · unfold is_global_folded
    cases hreg : find_headline v.lines 0 false with
    | none => rfl
    | some reg =>
      exact isGlobalFoldedLoop_isSome v (viewFuel v) reg.a
        (by unfold viewFuel; omega)
  · intro reg hreg
    unfold fold_all
    rw [hreg]
    dsimp only
    have hx := foldAllLoop_isSome (viewFuel v) v reg.a
      (by unfold viewFuel; omega)
    cases hy : foldAllLoop (viewFuel v) v reg.a with
    | none => rw [hy] at hx; cases hx
    | some w => rfl

/-- C7 (witness): the theorem applied at a concrete view and point. -/
theorem C7_folding_loops_terminate_witness :
    (isGlobalFoldedLoop ⟨[['#', ' ', 'A'], ['x']], [], [], none, "UTF-8"⟩
      (viewFuel ⟨[['#', ' ', 'A'], ['x']], [], [], none, "UTF-8"⟩) 0).isSome =
      true ∧
    (fold_all ⟨[['#', ' ', 'A'], ['x']], [], [], none, "UTF-8"⟩).isSome =
      true := by
  have h := C7_folding_loops_terminate
    ⟨[['#', ' ', 'A'], ['x']], [], [], none, "UTF-8"⟩ 0
  exact ⟨h.1, h.2.2.2 ⟨0, 3⟩ (by decide)⟩

/- ------------------------------------------------------------------
   C9: tab insertion when no selection point is on a headline.
   ------------------------------------------------------------------ -/

theorem insertAt_zero (t : List Char) (c : Char) : insertAt t 0 c = c :: t := rfl

theorem insertAt_cons_succ (a : Char) (t : List Char) (n : Nat) (c : Char) :
    insertAt (a :: t) (n + 1) c = a :: insertAt t n c := by
  unfold insertAt
  rw [List.take_succ_cons, List.drop_succ_cons]
  rfl

theorem insertAt_length (t : List Char) (p : Nat) (c : Char) :
    (insertAt t p c).length = t.length + 1 := by
  unfold insertAt
  simp
  omega

theorem insertTabsSpec_length (t : List Char) (ps : List Nat) :
    (insertTabsSpec t ps).length = t.length + ps.length := by
  induction ps with
  | nil => rfl
  | cons q ps ih =>
    show (insertAt (insertTabsSpec t ps) q '\t').length = _
    rw [insertAt_length, ih]
    simp
    omega

theorem insertAt_comm :
    ∀ (p : Nat) (t : List Char) (q : Nat) (c c2 : Char), p ≤ q → q ≤ t.length →
      insertAt (insertAt t p c) (q + 1) c2 = insertAt (insertAt t q c2) p c := by
  intro p
  induction p with
  | zero =>
    intro t q c c2 _ _
    rw [insertAt_zero, insertAt_cons_succ, insertAt_zero]
  | succ p ih =>
    intro t q c c2 hpq hq
    cases t with
    | nil => simp at hq; omega
    | cons a t2 =>
      cases q with
      | zero => omega
      | succ q2 =>
        have hq2 : q2 ≤ t2.length := by simp at hq; omega
        rw [insertAt_cons_succ a t2 p c, insertAt_cons_succ a t2 q2 c2,
          insertAt_cons_succ a (insertAt t2 p c) (q2 + 1) c2,
          insertAt_cons_succ a (insertAt t2 q2 c2) p c,
          ih t2 q2 c c2 (by omega) hq2]

theorem insertTabsSpec_insert (t : List Char) (p : Nat) (ps : List Nat)
    (hp : ∀ q ∈ ps, p ≤ q ∧ q ≤ t.length) :
    insertTabsSpec (insertAt t p '\t') (ps.map (fun q => q + 1)) =
      insertAt (insertTabsSpec t ps) p '\t' := by
  induction ps with
  | nil => rfl
  | cons q ps ih =>
    have hq := hp q (List.mem_cons_self q ps)
    show insertAt
      (insertTabsSpec (insertAt t p '\t') (ps.map (fun q => q + 1)))
      (q + 1) '\t' = insertAt (insertAt (insertTabsSpec t ps) q '\t') p '\t'
    rw [ih (fun x hx => hp x (List.mem_cons_of_mem q hx))]
    refine insertAt_comm p (insertTabsSpec t ps) q '\t' '\t' hq.1 ?_
    rw [insertTabsSpec_length]
    omega

theorem joinLines_cons (l : List Char) (ls : Lines) (h : ls ≠ []) :
    joinLines (l :: ls) = l ++ '\n' :: joinLines ls := by
  cases ls with
  | nil => exact absurd rfl h
  | cons a t => rfl

theorem set_ne_nil (ls : Lines) (n : Nat) (x : List Char) (h : ls ≠ []) :
    ls.set n x ≠ [] := by
  intro hx
  have hl := congrArg List.length hx
  rw [List.length_set] at hl
  simp at hl
  exact h hl

/-- Inserting one character through the row/column interface of the
host agrees with inserting into the joined buffer text. -/
theorem joinLines_set_insert (c : Char) :
    ∀ (ls : Lines), ls ≠ [] → ∀ p, p ≤ (joinLines ls).length →
      joinLines (ls.set (rowOf ls p)
        (insertAt (lineAt ls (rowOf ls p)) (colOf ls p) c)) =
      insertAt (joinLines ls) p c := by
  intro ls
  induction ls with
  | nil => intro h; exact absurd rfl h
  | cons l tail ih =>
    intro _ p hp
    cases tail with
    | nil =>
      have hp2 : p ≤ l.length := by simpa [joinLines] using hp
      have hr : rowOf [l] p = 0 := by unfold rowOf; rw [if_pos hp2]
      have hc : colOf [l] p = p := by unfold colOf; rw [if_pos hp2]
      rw [hr, hc]
      rfl
    | cons l2 t2 =>
      have hjoin : joinLines (l :: l2 :: t2) =
          l ++ '\n' :: joinLines (l2 :: t2) := rfl
      by_cases hpl : p ≤ l.length
      · have hr : rowOf (l :: l2 :: t2) p = 0 := by
          unfold rowOf; rw [if_pos hpl]
        have hcc : colOf (l :: l2 :: t2) p = p := by
          unfold colOf; rw [if_pos hpl]
        rw [hr, hcc]
        show joinLines (insertAt l p c :: l2 :: t2) =
          insertAt (joinLines (l :: l2 :: t2)) p c
        rw [joinLines_cons (insertAt l p c) (l2 :: t2) (by simp), hjoin]
        unfold insertAt
        rw [List.take_append_eq_append_take, List.drop_append_eq_append_drop,
          show p - l.length = 0 from by omega]
        simp
      · have hr : rowOf (l :: l2 :: t2) p =
            1 + rowOf (l2 :: t2) (p - (l.length + 1)) := by
          show (if p ≤ l.length then 0
            else 1 + rowOf (l2 :: t2) (p - (l.length + 1))) = _
          rw [if_neg hpl]
        have hcc : colOf (l :: l2 :: t2) p =
            colOf (l2 :: t2) (p - (l.length + 1)) := by
          show (if p ≤ l.length then p
            else colOf (l2 :: t2) (p - (l.length + 1))) = _
          rw [if_neg hpl]
        have hp2 : p - (l.length + 1) ≤ (joinLines (l2 :: t2)).length := by
          rw [hjoin] at hp
          simp at hp
          omega
        rw [hr, hcc, show 1 + rowOf (l2 :: t2) (p - (l.length + 1)) =
          rowOf (l2 :: t2) (p - (l.length + 1)) + 1 from by omega]
        show joinLines (l :: (l2 :: t2).set
            (rowOf (l2 :: t2) (p - (l.length + 1)))
            (insertAt (lineAt (l2 :: t2) (rowOf (l2 :: t2) (p - (l.length + 1))))
              (colOf (l2 :: t2) (p - (l.length + 1))) c)) =
          insertAt (joinLines (l :: l2 :: t2)) p c
        rw [joinLines_cons _ _ (set_ne_nil _ _ _ (by simp)),
          ih (by simp) (p - (l.length + 1)) hp2, hjoin]
        unfold insertAt
        rw [List.take_append_eq_append_take, List.drop_append_eq_append_drop]
        rw [List.take_of_length_le (show l.length ≤ p by omega)]
        rw [List.drop_eq_nil_of_le (show l.length ≤ p by omega)]
        rw [show p - l.length = (p - (l.length + 1)) + 1 from by omega,
          List.take_succ_cons, List.drop_succ_cons]
        simp

theorem shiftRegion_a_of_le (p : Nat) (x : Region) (h : p ≤ x.a) :
    (shiftRegion p x).a = x.a + 1 := by
  show (if p ≤ x.a then x.a + 1 else x.a) = x.a + 1
  rw [if_pos h]

/-- The tab-insertion loop over the live selection list realises the
reference insertion at the original positions. -/
theorem insertTabsFrom_spec :
    ∀ (m : Nat) (v : View) (k : Nat),
      v.lines ≠ [] →
      List.Pairwise (fun a b : Nat => a < b)
        ((v.sel.drop k).map (fun r => r.a)) →
      (∀ q ∈ (v.sel.drop k).map (fun r => r.a),
        q ≤ (joinLines v.lines).length) →
      v.sel.length ≤ k + m →
      joinLines (insertTabsFrom m v k).lines =
        insertTabsSpec (joinLines v.lines)
          ((v.sel.drop k).map (fun r => r.a)) := by
  intro m
  induction m with
  | zero =>
    intro v k hnn hpw hbd hlen
    rw [List.drop_eq_nil_of_le (by omega)]
    rfl
  | succ n ih =>
    intro v k hnn hpw hbd hlen
    cases hget : v.sel.get? k with
    | none =>
      have hk : v.sel.length ≤ k := List.get?_eq_none.1 hget
      have hstep : insertTabsFrom (n + 1) v k = v := by
        unfold insertTabsFrom
        rw [hget]
      rw [hstep, List.drop_eq_nil_of_le hk]
      rfl
    | some r =>
      have hklen : k < v.sel.length := by
        by_contra hk2
        rw [List.get?_eq_none.2 (by omega)] at hget
        cases hget
      have hdropk : v.sel.drop k = r :: v.sel.drop (k + 1) := by
        have h4 := List.get?_eq_get hklen
        rw [hget] at h4
        injection h4 with h4
        rw [List.drop_eq_getElem_cons hklen]
        rw [h4]
        rfl
      rw [hdropk] at hpw hbd ⊢
      simp only [List.map_cons] at hpw hbd ⊢
      obtain ⟨hhead, hrest⟩ := List.pairwise_cons.1 hpw
      have hpbound : r.a ≤ (joinLines v.lines).length :=
        hbd r.a (List.mem_cons_self _ _)
      have hstep : insertTabsFrom (n + 1) v k =
          insertTabsFrom n (viewInsert v r.a '\t') (k + 1) := by
        show (match v.sel.get? k with
          | none => v
          | some r => insertTabsFrom n (viewInsert v r.a '\t') (k + 1)) =
          insertTabsFrom n (viewInsert v r.a '\t') (k + 1)
        rw [hget]
      rw [hstep]
      have hlines2 : joinLines (viewInsert v r.a '\t').lines =
          insertAt (joinLines v.lines) r.a '\t' :=
        joinLines_set_insert '\t' v.lines hnn r.a hpbound
      have hnn2 : (viewInsert v r.a '\t').lines ≠ [] :=
        set_ne_nil v.lines _ _ hnn
      have hsel2 : (viewInsert v r.a '\t').sel =
          v.sel.map (shiftRegion r.a) := rfl
      have hmap2 : (((viewInsert v r.a '\t').sel.drop (k + 1)).map
            (fun r => r.a)) =
          ((v.sel.drop (k + 1)).map (fun r => r.a)).map (fun q => q + 1) := by
        rw [hsel2, ← List.map_drop, List.map_map, List.map_map]
        apply List.map_congr_left
        intro x hx
        show (shiftRegion r.a x).a = x.a + 1
        apply shiftRegion_a_of_le
        have hxa : x.a ∈ (v.sel.drop (k + 1)).map (fun r => r.a) :=
          List.mem_map_of_mem _ hx
        have := hhead x.a hxa
        omega
      have hpw2 : List.Pairwise (fun a b : Nat => a < b)
          (((viewInsert v r.a '\t').sel.drop (k + 1)).map (fun r => r.a)) := by
        rw [hmap2]
        exact (List.pairwise_map.2 (hrest.imp (fun h => by omega)))
      have hbd2 : ∀ q ∈ ((viewInsert v r.a '\t').sel.drop (k + 1)).map
            (fun r => r.a),
          q ≤ (joinLines (viewInsert v r.a '\t').lines).length := by
        rw [hmap2, hlines2, insertAt_length]
        intro q hq
        obtain ⟨q2, hq2, rfl⟩ := List.mem_map.1 hq
        have := hbd q2 (List.mem_cons_of_mem _ hq2)
        omega
      have hlen2 : (viewInsert v r.a '\t').sel.length ≤ (k + 1) + n := by
        rw [hsel2, List.length_map]
        omega
      have hIH := ih (viewInsert v r.a '\t') (k + 1) hnn2 hpw2 hbd2 hlen2
      rw [hmap2, hlines2] at hIH
      rw [insertTabsSpec_insert (joinLines v.lines) r.a
        ((v.sel.drop (k + 1)).map (fun r => r.a)) ?hps] at hIH
      case hps =>
        intro q hq
        have h1 := hhead q hq
        have h2 := hbd q (List.mem_cons_of_mem _ hq)
        omega
      exact hIH

theorem fold_or_unfold_nomatch (v : View) (p : Nat)
    (h : levelAtPoint v.lines p = none) :
    fold_or_unfold_headline_at_point v p = (v, false) := by
  unfold fold_or_unfold_headline_at_point viewFuel
  rw [foldOrUnfoldAux_nohead v.lines.length v p h]

theorem fold_or_unfold_matched (v : View) (p lv : Nat)
    (h : levelAtPoint v.lines p = some lv) :
    (fold_or_unfold_headline_at_point v p).2 = true := by
  unfold fold_or_unfold_headline_at_point viewFuel
  cases hcr : contentRegion v.lines p with
  | none => rw [foldOrUnfoldAux_nocontent v.lines.length v p lv h hcr]
  | some cr =>
    by_cases hf : is_region_totally_folded v (some cr) = true
    · rw [foldOrUnfoldAux_folded v.lines.length v p lv cr h hcr hf]
    · have hff : is_region_totally_folded v (some cr) = false := by
        revert hf; cases is_region_totally_folded v (some cr) <;> simp
      rw [foldOrUnfoldAux_notfolded v.lines.length v p lv cr h hcr hff]

theorem smartRunFoldLoop_nomatch :
    ∀ (rs : List Region) (v : View),
      (∀ r ∈ rs, levelAtPoint v.lines r.a = none) →
      smartRunFoldLoop v rs = (v, false) := by
  intro rs
  induction rs with
  | nil => intro v _; rfl
  | cons r rs ih =>
    intro v h
    unfold smartRunFoldLoop
    rw [fold_or_unfold_nomatch v r.a (h r (List.mem_cons_self r rs))]
    dsimp only
    rw [ih v (fun x hx => h x (List.mem_cons_of_mem r hx))]
    rfl

theorem smartRunFoldLoop_matched :
    ∀ (rs : List Region) (v : View) (r : Region), r ∈ rs →
      (levelAtPoint v.lines r.a).isSome = true →
      (smartRunFoldLoop v rs).2 = true := by
  intro rs
  induction rs with
  | nil => intro v r hr; cases hr
  | cons x rs ih =>
    intro v r hr hlv
    unfold smartRunFoldLoop
    dsimp only
    rcases List.mem_cons.1 hr with he | hm
    · subst he
      cases hl : levelAtPoint v.lines r.a with
      | none => rw [hl] at hlv; cases hlv
      | some lv =>
        rw [fold_or_unfold_matched v r.a lv hl]
        simp
    · have hfl := foldOrUnfoldAux_foldsOnly (viewFuel v) v x.a
      have hlv2 : (levelAtPoint
          (fold_or_unfold_headline_at_point v x.a).1.lines r.a).isSome = true := by
        have hle : (fold_or_unfold_headline_at_point v x.a).1.lines = v.lines :=
          hfl.1
        rw [hle]
        exact hlv
      rw [ih (fold_or_unfold_headline_at_point v x.a).1 r hm hlv2]
      simp

/-- C9: if no selection point lies on a headline,
`SmartFoldingCommand.run` inserts a tab character at the position of
every selection region (the resulting buffer text is the original text
with one tab inserted at each original selection position); if at least
one selection point lies on a headline, the buffer text is unchanged
(no tab is inserted anywhere). -/
theorem C9_tab_on_no_headline (v : View)
    (hnn : v.lines ≠ [])
    (hsorted : List.Pairwise (fun r s : Region => r.a < s.a) v.sel)
    (hbound : ∀ r ∈ v.sel, r.a ≤ (joinLines v.lines).length) :
    ((∀ r ∈ v.sel, levelAtPoint v.lines r.a = none) →
      joinLines (smart_folding_run v).lines =
        insertTabsSpec (joinLines v.lines) (v.sel.map (fun r => r.a))) ∧
    ((∃ r ∈ v.sel, (levelAtPoint v.lines r.a).isSome = true) →
      (smart_folding_run v).lines = v.lines) := by
  constructor
  · intro hno
    have hloop := smartRunFoldLoop_nomatch v.sel v hno
    unfold smart_folding_run
    rw [hloop]
    dsimp only
    rw [if_neg Bool.false_ne_true]
    have hspec := insertTabsFrom_spec v.sel.length v 0 hnn
      (by
        rw [List.drop_zero]
        exact List.pairwise_map.2 hsorted)
      (by
        rw [List.drop_zero]
        intro q hq
        obtain ⟨r, hr, rfl⟩ := List.mem_map.1 hq
        exact hbound r hr)
      (by omega)
    rw [List.drop_zero] at hspec
    exact hspec
  · intro hyes
    obtain ⟨r, hr, hlv⟩ := hyes
    have h2 := smartRunFoldLoop_matched v.sel v r hr hlv
    unfold smart_folding_run
    dsimp only
    rw [h2, if_pos rfl]
    exact (smartRunFoldLoop_foldsOnly v.sel v).1

/-- C9 (witness): on the one-line buffer `ab` with a single cursor at
position 1, the command inserts a tab there. -/
theorem C9_tab_on_no_headline_witness :
    joinLines (smart_folding_run
      ⟨[['a', 'b']], [⟨1, 1⟩], [], none, "UTF-8"⟩).lines =
      ['a', '\t', 'b'] := by
  have h := C9_tab_on_no_headline ⟨[['a', 'b']], [⟨1, 1⟩], [], none, "UTF-8"⟩
    (by decide) (by decide) (by decide)
  have h2 := h.1 (by decide)
  rw [h2]
  decide

/- ------------------------------------------------------------------
   C6: frame effects of the commands.
   ------------------------------------------------------------------ -/

theorem insertTabsFrom_sameFile :
    ∀ (m : Nat) (v : View) (k : Nat),
      (insertTabsFrom m v k).fileName = v.fileName ∧
      (insertTabsFrom m v k).encoding = v.encoding := by
  intro m
  induction m with
  | zero => intro v k; exact ⟨rfl, rfl⟩
  | succ n ih =>
    intro v k
    cases hget : v.sel.get? k with
    | none =>
      have hstep : insertTabsFrom (n + 1) v k = v := by
        unfold insertTabsFrom
        rw [hget]
      rw [hstep]
      exact ⟨rfl, rfl⟩
    | some r =>
      have hstep : insertTabsFrom (n + 1) v k =
          insertTabsFrom n (viewInsert v r.a '\t') (k + 1) := by
        show (match v.sel.get? k with
          | none => v
          | some r => insertTabsFrom n (viewInsert v r.a '\t') (k + 1)) =
          insertTabsFrom n (viewInsert v r.a '\t') (k + 1)
        rw [hget]
      rw [hstep]
      exact ih (viewInsert v r.a '\t') (k + 1)

theorem smart_folding_run_sameFile (v : View) :
    (smart_folding_run v).fileName = v.fileName ∧
    (smart_folding_run v).encoding = v.encoding := by
  unfold smart_folding_run
  dsimp only
  by_cases h : (smartRunFoldLoop v v.sel).2 = true
  · rw [if_pos h]
    have hfo := smartRunFoldLoop_foldsOnly v.sel v
    exact ⟨hfo.2.2.1, hfo.2.2.2⟩
  · rw [if_neg h]
    have h1 := insertTabsFrom_sameFile (smartRunFoldLoop v v.sel).1.sel.length
      (smartRunFoldLoop v v.sel).1 0
    have h2 := smartRunFoldLoop_foldsOnly v.sel v
    exact ⟨h1.1.trans h2.2.2.1, h1.2.trans h2.2.2.2⟩

theorem foldAllLoop_foldsOnly :
    ∀ (fuel : Nat) (v : View) (p : Nat) (w : View),
      foldAllLoop fuel v p = some w → FoldsOnly v w := by
  intro fuel
  induction fuel with
  | zero => intro v p w h; cases h
  | succ n ih =>
    intro v p w h
    unfold foldAllLoop at h
    dsimp only at h
    cases hcr : contentRegion v.lines p with
    | none =>
      rw [hcr] at h
      dsimp only at h
      cases hfh : find_headline v.lines p true with
      | none =>
        rw [hfh] at h
        injection h with h
        subst h
        exact foldsOnly_refl v
      | some reg =>
        rw [hfh] at h
        exact ih v reg.a w h
    | some s =>
      rw [hcr] at h
      dsimp only at h
      cases hfh : find_headline (viewFold v s).lines s.b true with
      | none =>
        rw [hfh] at h
        injection h with h
        subst h
        exact foldsOnly_viewFold v s
      | some reg =>
        rw [hfh] at h
        exact foldsOnly_trans (foldsOnly_viewFold v s) (ih (viewFold v s) reg.a w h)

theorem global_folding_run_sameFile (v w : View)
    (h : global_folding_run v = some w) :
    w.fileName = v.fileName ∧ w.encoding = v.encoding := by
  unfold global_folding_run at h
  cases hg : is_global_folded v with
  | none => rw [hg] at h; cases h
  | some b =>
    rw [hg] at h
    cases b with
    | true =>
      injection h with h
      subst h
      exact ⟨rfl, rfl⟩
    | false =>
      unfold fold_all at h
      cases hf : find_headline v.lines 0 false with
      | none => rw [hf] at h; cases h
      | some reg =>
        rw [hf] at h
        dsimp only at h
        cases hl : foldAllLoop (viewFuel v) v reg.a with
        | none => rw [hl] at h; cases h
        | some u =>
          rw [hl, Option.map_some'] at h
          injection h with h
          subst h
          have hfo := foldAllLoop_foldsOnly (viewFuel v) v reg.a u hl
          exact ⟨hfo.2.2.1, hfo.2.2.2⟩

/-- C6: the persistent editor entities are mutated only through host
calls, and the conversion command mutates none of them.
`PandocRenderCommand.run` returns the view unchanged (its buffer,
selection and folded-region list included; all its writes are file and
subprocess effects), and the folding commands touch the view only
through the insert/fold/unfold/sel host calls: in particular they leave
the components the host does not expose for mutation (file name,
encoding) unchanged. -/
theorem C6_host_mutation_frame (v : View) (args : PandocArgs)
    (env : PandocEnv) :
    (pandocRun v args env).view = v ∧
    (smart_folding_run v).fileName = v.fileName ∧
    (smart_folding_run v).encoding = v.encoding ∧
    (∀ w, global_folding_run v = some w →
      w.fileName = v.fileName ∧ w.encoding = v.encoding) := by
  refine ⟨rfl, (smart_folding_run_sameFile v).1, (smart_folding_run_sameFile v).2,
    fun w h => global_folding_run_sameFile v w h⟩

/-- C6 (witness): the theorem applied at a concrete view, including a
concrete global folding run. -/
theorem C6_host_mutation_frame_witness :
    (pandocRun ⟨[['#', ' ', 'A'], ['x']], [], [], none, "UTF-8"⟩
      ⟨"pdf", true, false⟩ ⟨fun _ => "t", "linux"⟩).view =
      ⟨[['#', ' ', 'A'], ['x']], [], [], none, "UTF-8"⟩ ∧
    (⟨[['#', ' ', 'A'], ['x']], [], [⟨4, 5⟩], none, "UTF-8"⟩ : View).fileName =
      (⟨[['#', ' ', 'A'], ['x']], [], [], none, "UTF-8"⟩ : View).fileName := by
  have h := C6_host_mutation_frame ⟨[['#', ' ', 'A'], ['x']], [], [], none, "UTF-8"⟩
    ⟨"pdf", true, false⟩ ⟨fun _ => "t", "linux"⟩
  exact ⟨h.1, (h.2.2.2 ⟨[['#', ' ', 'A'], ['x']], [], [⟨4, 5⟩], none, "UTF-8"⟩
    (by decide)).1⟩

end SmartMarkdown
